import Mathlib

/-!
Verification development for the `ragged` library (scikit-hep/ragged).

The Python source is shallowly embedded in Lean:
* numeric scalars are modelled as `ℚ` (all concrete data in the claims are
  small integers or decimal literals, on which float64 arithmetic is exact);
* ragged nested values (`ak.to_list` of an awkward Array) are modelled by the
  inductive tree `Rag`;
* two-dimensional ragged values, where a function demands `ndim == 2`, are
  modelled directly as `List (List ℚ)`;
* Python exceptions are modelled by `Except String` / `Option` results.
-/

set_option maxHeartbeats 1000000

namespace Ragged

/-! ### CF contiguous/indexed interchange — src/ragged/io/cf.py

The four functions only accept two-dimensional ragged arrays (`ndim != 2`
raises `NotImplementedError`), so they are embedded over `List (List ℚ)`:
the outer list is the row dimension, inner lists are the variable-length
rows.  `ak.flatten` is `List.join`, `ak.num` is `List.map List.length`,
`ak.unflatten` splits a flat buffer by counts and raises if the counts do
not use up the buffer exactly. -/

/-- Embedding of `ak.unflatten`'s splitting loop: cut `cont` into pieces of
the given sizes. -/
def unflattenList (cont : List ℚ) : List ℕ → List (List ℚ)
  | [] => []
  | c :: cs => cont.take c :: unflattenList (cont.drop c) cs

/-- Embedding of `ak.unflatten`: errors (`none`) unless the counts sum to the
length of the flat content buffer. -/
def akUnflatten (cont : List ℚ) (counts : List ℕ) : Option (List (List ℚ)) :=
  if counts.sum = cont.length then some (unflattenList cont counts) else none

/-- Embedding of `to_cf_contiguous` (cf.py lines 14-20): flat content buffer
plus per-row counts. -/
def to_cf_contiguous (x : List (List ℚ)) : List ℚ × List ℕ :=
  (x.flatten, x.map List.length)

/-- Embedding of `from_cf_contiguous` (cf.py lines 23-29): `ak.unflatten`. -/
def from_cf_contiguous (content : List ℚ) (counts : List ℕ) : Option (List (List ℚ)) :=
  akUnflatten content counts

/-- Embedding of `to_cf_indexed` (cf.py lines 32-41): flat content buffer plus
the flattened broadcast of `arange(len(x))` against the rows, i.e. each row
`i` contributes `len(row)` copies of the row index `i`. -/
def to_cf_indexed (x : List (List ℚ)) : List ℚ × List ℕ :=
  (x.flatten, x.enum.flatMap (fun p => List.replicate p.2.length p.1))

/-- Maximum of a list of naturals, `0` on empty: `ak.max` over the (nonneg)
row-index buffer. -/
def natMax (l : List ℕ) : ℕ := l.foldr max 0

/-- The documented contract of `np.argsort` on the row-index key buffer: the
result is a permutation of the positions under which the keys become
non-decreasing.  The default `kind='quicksort'` guarantees nothing more —
in particular not stability, so the relative order of positions holding
equal keys is unspecified (numpy's introsort preserves it only for runs
short enough for its insertion-sort phase). -/
def npArgsortSpec (ind perm : List ℕ) : Prop :=
  perm.Perm (List.range ind.length)
    ∧ (perm.map (fun i => ind.getD i 0)).Sorted (· ≤ ·)

/-- The stable argsort permutation: for each key value `j` in increasing
order, the positions holding `j`, in their original order.  This is one
admissible `np.argsort` result (the one numpy returns for `kind='stable'`,
and — being deterministic on equal keys — also what its default insertion
sort produces on the short buffers evaluated concretely below); it is used
for concrete evaluations and for the stable-case statements, while the
universally-quantified theorems assume only `npArgsortSpec`. -/
def stableArgsort (ind : List ℕ) : List ℕ :=
  (List.range (natMax ind + 1)).flatMap
    (fun j => (List.range ind.length).filter (fun i => ind.getD i 0 = j))

/-- Embedding of `from_cf_indexed` (cf.py lines 44-54), parameterized by the
argsort implementation: the source computes `cont[ns.argsort(ind)]` with
numpy's default sort kind, whose tie-breaking among equal row indices is
unspecified, so the embedding takes `argsort` as a parameter and the
theorems constrain it only by `npArgsortSpec`.  Tally per-row counts with
`np.add.at`, reorder the content by `argsort(index)`, and `ak.unflatten` by
the tallied counts.  `ak.max` of an empty index buffer is `None`, so an
empty index errors (`None + 1` raises); a content/index length mismatch
errors inside the fancy indexing / unflatten. -/
def from_cf_indexed (argsort : List ℕ → List ℕ) (content : List ℚ) (ind : List ℕ) :
    Option (List (List ℚ)) :=
  if ind.isEmpty then none
  else if content.length ≠ ind.length then none
  else
    let counts := (List.range (natMax ind + 1)).map (fun j => ind.count j)
    akUnflatten ((argsort ind).map (fun i => content.getD i 0)) counts

/-- The subsequence of `content` whose paired index equals `j`, in original
order: "row `j`" of an indexed encoding. -/
def rowFilter (j : ℕ) (content : List ℚ) (ind : List ℕ) : List ℚ :=
  (content.zip ind).filterMap (fun p => if p.2 = j then some p.1 else none)

example : to_cf_contiguous [[1, 2], [3]] = ([1, 2, 3], [2, 1]) := by decide
example : from_cf_contiguous [1, 2, 3] [2, 1] = some [[1, 2], [3]] := by decide
example : to_cf_indexed [[1, 2], [3]] = ([1, 2, 3], [0, 0, 1]) := by decide
example : from_cf_indexed stableArgsort [1, 2, 3] [0, 0, 1] = some [[1, 2], [3]] := by decide
example : from_cf_indexed stableArgsort [3, 1, 2] [1, 0, 0] = some [[1, 2], [3]] := by decide
example : from_cf_indexed stableArgsort [1] [0] = some [[1]] := by decide
example : from_cf_indexed stableArgsort [2, 1] [0, 0] = some [[2, 1]] := by decide

/-- Row-index buffer produced by `to_cf_indexed`, generalized to an arbitrary
first row number `k` for the induction. -/
def ixFrom (k : ℕ) (x : List (List ℚ)) : List ℕ :=
  (x.enumFrom k).flatMap (fun p => List.replicate p.2.length p.1)

theorem ixFrom_zero (x : List (List ℚ)) : (to_cf_indexed x).2 = ixFrom 0 x := rfl

theorem unflatten_flatten (x : List (List ℚ)) :
    unflattenList x.flatten (x.map List.length) = x := by
  induction x with
  | nil => rfl
  | cons r rs ih =>
      simp only [List.flatten_cons, List.map_cons, unflattenList,
        List.take_left, List.drop_left]
      rw [ih]

theorem rowFilter_nil_right (j : ℕ) (cont : List ℚ) : rowFilter j cont [] = [] := by
  simp [rowFilter]

theorem rowFilter_cons (j : ℕ) (c : ℚ) (ct : List ℚ) (a : ℕ) (tl : List ℕ) :
    rowFilter j (c :: ct) (a :: tl)
      = (if a = j then [c] else []) ++ rowFilter j ct tl := by
  simp only [rowFilter, List.zip_cons_cons, List.filterMap_cons]
  split <;> simp_all

theorem rowFilter_append (j : ℕ) (c1 c2 : List ℚ) (i1 i2 : List ℕ)
    (h : c1.length = i1.length) :
    rowFilter j (c1 ++ c2) (i1 ++ i2) = rowFilter j c1 i1 ++ rowFilter j c2 i2 := by
  simp only [rowFilter, List.zip_append h, List.filterMap_append]

theorem rowFilter_replicate (j k : ℕ) (r : List ℚ) :
    rowFilter j r (List.replicate r.length k) = if k = j then r else [] := by
  induction r with
  | nil => simp [rowFilter]
  | cons c ct ih =>
      rw [List.length_cons, List.replicate_succ, rowFilter_cons, ih]
      split <;> simp

theorem argsort_block (ind : List ℕ) (j : ℕ) :
    ∀ cont : List ℚ, cont.length = ind.length →
      ((List.range ind.length).filter (fun i => ind.getD i 0 = j)).map
          (fun i => cont.getD i 0)
        = rowFilter j cont ind := by
  induction ind with
  | nil =>
      intro cont h
      rw [List.length_eq_zero.mp h]
      rfl
  | cons a tl ih =>
      intro cont h
      match cont, h with
      | c :: ct, h =>
        have hct : ct.length = tl.length := by simpa using h
        rw [List.length_cons, List.range_succ_eq_map, List.filter_cons,
          rowFilter_cons]
        have hmap : (List.filter (fun i => decide ((a :: tl).getD i 0 = j))
              ((List.range tl.length).map Nat.succ)).map (fun i => (c :: ct).getD i 0)
            = rowFilter j ct tl := by
          rw [List.filter_map, List.map_map]
          have e1 : ((fun i => decide ((a :: tl).getD i 0 = j)) ∘ Nat.succ)
              = (fun i => decide (tl.getD i 0 = j)) := by
            funext i
            simp [Nat.succ_eq_add_one]
          rw [e1]
          have e2 : ((fun i => (c :: ct).getD i 0) ∘ Nat.succ)
              = (fun i => ct.getD i 0) := by
            funext i
            simp [Nat.succ_eq_add_one]
          rw [e2]
          exact ih ct hct
        by_cases ha : a = j
        · subst ha
          simp only [List.getD_cons_zero]
          rw [if_pos (by simp), List.map_cons, hmap]
          simp
        · simp only [List.getD_cons_zero]
          rw [if_neg (by simp [ha]), if_neg ha, hmap]
          simp

theorem stableArgsort_map (cont : List ℚ) (ind : List ℕ)
    (h : cont.length = ind.length) :
    (stableArgsort ind).map (fun i => cont.getD i 0)
      = (List.range (natMax ind + 1)).flatMap (fun j => rowFilter j cont ind) := by
  rw [stableArgsort, List.map_flatMap]
  exact List.flatMap_congr (fun j _ => argsort_block ind j cont h)

theorem count_eq_rowFilter_length (j : ℕ) :
    ∀ (ind : List ℕ) (cont : List ℚ), cont.length = ind.length →
      ind.count j = (rowFilter j cont ind).length := by
  intro ind
  induction ind with
  | nil => intro cont h; simp [rowFilter]
  | cons a tl ih =>
      intro cont h
      match cont, h with
      | c :: ct, h =>
        have hct : ct.length = tl.length := by simpa using h
        rw [rowFilter_cons, List.length_append, List.count_cons, ← ih ct hct]
        by_cases ha : a = j <;> simp [ha, Nat.add_comm]

theorem le_natMax {l : List ℕ} {i : ℕ} (h : i ∈ l) : i ≤ natMax l := by
  induction l with
  | nil => cases h
  | cons a tl ih =>
      rcases List.mem_cons.mp h with rfl | h
      · exact le_max_left _ _
      · exact le_trans (ih h) (le_max_right _ _)

theorem natMax_le {l : List ℕ} {b : ℕ} (h : ∀ i ∈ l, i ≤ b) : natMax l ≤ b := by
  induction l with
  | nil => exact Nat.zero_le b
  | cons a tl ih =>
      exact max_le (h a (List.mem_cons_self a tl))
        (ih (fun i hi => h i (List.mem_cons_of_mem a hi)))

theorem flatMap_range_getD (x : List (List ℚ)) :
    (List.range x.length).flatMap (fun j => x.getD j []) = x.flatten := by
  induction x with
  | nil => rfl
  | cons r rs ih =>
      rw [List.length_cons, List.range_succ_eq_map, List.flatMap_cons,
        List.flatMap_map, List.flatten_cons, List.getD_cons_zero]
      have e : ∀ a : ℕ, (r :: rs).getD a.succ [] = rs.getD a [] := by
        intro a
        simp [Nat.succ_eq_add_one]
      simp only [e]
      rw [ih]

theorem ixFrom_cons (k : ℕ) (r : List ℚ) (rs : List (List ℚ)) :
    ixFrom k (r :: rs) = List.replicate r.length k ++ ixFrom (k + 1) rs := rfl

theorem length_ixFrom (x : List (List ℚ)) :
    ∀ k, (ixFrom k x).length = (x.map List.length).sum := by
  induction x with
  | nil => intro k; rfl
  | cons r rs ih =>
      intro k
      rw [ixFrom_cons, List.length_append, List.length_replicate, ih (k + 1)]
      simp

theorem mem_ixFrom {x : List (List ℚ)} :
    ∀ {k i : ℕ}, i ∈ ixFrom k x → k ≤ i ∧ i < k + x.length := by
  induction x with
  | nil => intro k i h; cases h
  | cons r rs ih =>
      intro k i h
      rw [ixFrom_cons] at h
      rcases List.mem_append.mp h with h | h
      · have := List.eq_of_mem_replicate h
        subst this
        exact ⟨le_refl _, by simp⟩
      · have := ih h
        constructor <;> [omega; (simp only [List.length_cons]; omega)]

theorem rowFilter_ixFrom (x : List (List ℚ)) :
    ∀ k j, rowFilter j x.flatten (ixFrom k x)
      = if k ≤ j ∧ j < k + x.length then x.getD (j - k) [] else [] := by
  induction x with
  | nil =>
      intro k j
      rw [if_neg (by simp)]
      simp [rowFilter, ixFrom]
  | cons r rs ih =>
      intro k j
      rw [List.flatten_cons, ixFrom_cons,
        rowFilter_append j r rs.flatten _ _ (List.length_replicate _ _).symm,
        rowFilter_replicate, ih (k + 1) j]
      by_cases h1 : k = j
      · subst h1
        rw [if_pos rfl, if_neg (by omega), if_pos (by simp)]
        simp
      · rw [if_neg h1, List.nil_append]
        by_cases h2 : k + 1 ≤ j ∧ j < k + 1 + rs.length
        · rw [if_pos h2, if_pos (by simp only [List.length_cons]; omega)]
          have e : j - k = (j - (k + 1)) + 1 := by omega
          rw [e, List.getD_cons_succ]
        · rw [if_neg h2, if_neg (by simp only [List.length_cons]; omega)]

theorem from_cf_indexed_eq (x : List (List ℚ)) (cont : List ℚ) (ind : List ℕ)
    (hne : x ≠ []) (hlast : x.getD (x.length - 1) [] ≠ [])
    (hlen : cont.length = ind.length)
    (hbound : ∀ i ∈ ind, i < x.length)
    (hrows : ∀ j, j < x.length → rowFilter j cont ind = x.getD j []) :
    from_cf_indexed stableArgsort cont ind = some x := by
  have hxlen : 0 < x.length := List.length_pos.mpr hne
  have hrowlast := hrows (x.length - 1) (by omega)
  have hindne : ind ≠ [] := by
    intro h0
    subst h0
    have hc : cont = [] := List.length_eq_zero.mp (by simpa using hlen)
    subst hc
    rw [rowFilter_nil_right] at hrowlast
    exact hlast hrowlast.symm
  have hmem : x.length - 1 ∈ ind := by
    by_contra hmem
    have hnil : rowFilter (x.length - 1) cont ind = [] := by
      apply List.filterMap_eq_nil_iff.mpr
      intro p hp
      have h2 : p.2 ∈ ind := (List.of_mem_zip hp).2
      have h3 : p.2 ≠ x.length - 1 := fun e => hmem (e ▸ h2)
      simp [h3]
    rw [hnil] at hrowlast
    exact hlast hrowlast.symm
  have hmax : natMax ind = x.length - 1 :=
    le_antisymm (natMax_le (fun i hi => by have := hbound i hi; omega)) (le_natMax hmem)
  have hm1 : natMax ind + 1 = x.length := by omega
  have hcounts : (List.range x.length).map (fun j => ind.count j) = x.map List.length := by
    apply List.ext_getElem
    · simp
    · intro i h1 h2
      simp only [List.getElem_map, List.getElem_range]
      rw [count_eq_rowFilter_length i ind cont hlen,
        hrows i (by simpa using h1),
        List.getD_eq_getElem x [] (by simpa using h1)]
  have hflat : (List.range x.length).flatMap (fun j => rowFilter j cont ind)
      = x.flatten := by
    rw [← flatMap_range_getD x]
    exact List.flatMap_congr (fun j hj => hrows j (List.mem_range.mp hj))
  simp only [from_cf_indexed]
  rw [if_neg (by simp [hindne]), if_neg (fun h => h hlen),
    stableArgsort_map cont ind hlen, hm1, hcounts, hflat]
  simp only [akUnflatten]
  rw [if_pos (List.length_flatten x).symm, unflatten_flatten]

theorem sorted_of_all_eq (c : ℕ) : ∀ l : List ℕ, (∀ a ∈ l, a = c) → l.Sorted (· ≤ ·)
  | [], _ => List.sorted_nil
  | a :: l, h => by
      rw [List.sorted_cons]
      refine ⟨fun b hb => ?_,
        sorted_of_all_eq c l (fun b hb => h b (List.mem_cons_of_mem a hb))⟩
      rw [h a (by simp), h b (List.mem_cons_of_mem a hb)]

theorem sorted_flatMap_blocks (g : ℕ → List ℕ) (hg : ∀ j, ∀ a ∈ g j, a = j) :
    ∀ m, ((List.range m).flatMap g).Sorted (· ≤ ·) := by
  intro m
  induction m with
  | zero => exact List.sorted_nil
  | succ m ih =>
      rw [List.range_succ, List.flatMap_append]
      simp only [List.flatMap_cons, List.flatMap_nil, List.append_nil]
      rw [List.Sorted, List.pairwise_append]
      refine ⟨ih, sorted_of_all_eq m (g m) (hg m), ?_⟩
      intro y hy z hz
      obtain ⟨j, hj, hyj⟩ := List.mem_flatMap.mp hy
      rw [hg j y hyj, hg m z hz]
      exact Nat.le_of_lt (List.mem_range.mp hj)

theorem mem_stableArgsort {ind : List ℕ} {i : ℕ} :
    i ∈ stableArgsort ind ↔ i < ind.length := by
  rw [stableArgsort]
  constructor
  · intro h
    obtain ⟨j, _, hij⟩ := List.mem_flatMap.mp h
    exact List.mem_range.mp (List.mem_filter.mp hij).1
  · intro h
    apply List.mem_flatMap.mpr
    refine ⟨ind.getD i 0, ?_, ?_⟩
    · apply List.mem_range.mpr
      have hmem : ind.getD i 0 ∈ ind := by
        rw [List.getD_eq_getElem ind 0 h]
        exact List.getElem_mem h
      have := le_natMax hmem
      omega
    · exact List.mem_filter.mpr ⟨List.mem_range.mpr h, by simp⟩

theorem nodup_stableArgsort (ind : List ℕ) : (stableArgsort ind).Nodup := by
  rw [stableArgsort, List.flatMap_def]
  apply List.nodup_flatten.mpr
  constructor
  · intro l hl
    obtain ⟨j, _, rfl⟩ := List.mem_map.mp hl
    exact (List.nodup_range _).filter _
  · rw [List.pairwise_map]
    apply List.Pairwise.imp ?_ (List.pairwise_lt_range _)
    intro j j' hjj
    rw [List.disjoint_left]
    intro a ha ha'
    have h1 := (List.mem_filter.mp ha).2
    have h2 := (List.mem_filter.mp ha').2
    simp only [decide_eq_true_eq] at h1 h2
    omega

/-- The stable argsort satisfies `np.argsort`'s documented contract, so the
contract hypothesis of the theorems below is satisfiable. -/
theorem stableArgsort_spec (ind : List ℕ) : npArgsortSpec ind (stableArgsort ind) := by
  constructor
  · rw [List.perm_ext_iff_of_nodup (nodup_stableArgsort ind) (List.nodup_range _)]
    intro a
    rw [mem_stableArgsort, List.mem_range]
  · rw [stableArgsort, List.map_flatMap]
    apply sorted_flatMap_blocks
    intro j a ha
    obtain ⟨i, hi, rfl⟩ := List.mem_map.mp ha
    have := (List.mem_filter.mp hi).2
    simpa using this

theorem rowFilter_eq_nil (j : ℕ) (cont : List ℚ) (ind : List ℕ)
    (h : ∀ b ∈ ind, b ≠ j) : rowFilter j cont ind = [] := by
  apply List.filterMap_eq_nil_iff.mpr
  intro p hp
  have := h p.2 (List.of_mem_zip hp).2
  simp [this]

theorem flatMap_single_hit (v : ℚ) (g : ℕ → List ℚ) (a : ℕ)
    (hg : ∀ j, j < a → g j = []) :
    ∀ m, a ≤ m →
      (List.range (m + 1)).flatMap (fun j => (if a = j then [v] else []) ++ g j)
        = v :: (List.range (m + 1)).flatMap g := by
  intro m
  induction m with
  | zero =>
      intro ha
      have ha0 : a = 0 := by omega
      subst ha0
      simp [List.range_succ]
  | succ m ih =>
      intro _
      rw [show List.range (m + 1 + 1) = List.range (m + 1) ++ [m + 1] from
          List.range_succ (m + 1), List.flatMap_append, List.flatMap_append]
      by_cases ham : a ≤ m
      · rw [ih ham]
        have hne : a ≠ m + 1 := by omega
        simp [hne]
      · have ham1 : a = m + 1 := by omega
        subst ham1
        have h1 : (List.range (m + 1)).flatMap
            (fun j => (if m + 1 = j then [v] else []) ++ g j) = [] := by
          apply List.flatMap_eq_nil_iff.mpr
          intro j hj
          have hj' := List.mem_range.mp hj
          rw [if_neg (by omega), hg j hj']
          rfl
        have h2 : (List.range (m + 1)).flatMap g = [] := by
          apply List.flatMap_eq_nil_iff.mpr
          intro j hj
          exact hg j (List.mem_range.mp hj)
        rw [h1, h2]
        simp

/-- A buffer whose key list is already sorted decomposes into its per-key
blocks in key order: the counting-sort normal form of a sorted sequence. -/
theorem flatMap_rowFilter_of_sorted (m : ℕ) :
    ∀ (ind : List ℕ) (cont : List ℚ), cont.length = ind.length →
      ind.Sorted (· ≤ ·) → (∀ a ∈ ind, a ≤ m) →
      (List.range (m + 1)).flatMap (fun j => rowFilter j cont ind) = cont
  | [], cont, hlen, _, _ => by
      have hc : cont = [] := List.length_eq_zero.mp (by simpa using hlen)
      subst hc
      apply List.flatMap_eq_nil_iff.mpr
      intro j _
      rfl
  | a :: tl, cont, hlen, hsort, hbound => by
      match cont, hlen with
      | v :: ct, hlen =>
        have hlen' : ct.length = tl.length := by simpa using hlen
        have hhead : ∀ b ∈ tl, a ≤ b := (List.sorted_cons.mp hsort).1
        have hcongr : ∀ j ∈ List.range (m + 1),
            rowFilter j (v :: ct) (a :: tl)
              = (if a = j then [v] else []) ++ rowFilter j ct tl :=
          fun j _ => rowFilter_cons j v ct a tl
        rw [List.flatMap_congr hcongr,
          flatMap_single_hit v (fun j => rowFilter j ct tl) a
            (fun j hj => rowFilter_eq_nil j ct tl
              (fun b hb => by have := hhead b hb; omega))
            m (hbound a (by simp)),
          flatMap_rowFilter_of_sorted m tl ct hlen' (List.sorted_cons.mp hsort).2
            (fun b hb => hbound b (List.mem_cons_of_mem a hb))]

theorem zip_eq_map_range (cont : List ℚ) (ind : List ℕ) (hlen : cont.length = ind.length) :
    cont.zip ind = (List.range ind.length).map (fun i => (cont.getD i 0, ind.getD i 0)) := by
  apply List.ext_getElem
  · simp [hlen]
  · intro i h1 h2
    have hi : i < ind.length := by simpa using h2
    have hic : i < cont.length := by omega
    rw [List.getElem_zip, List.getElem_map, List.getElem_range,
      List.getD_eq_getElem cont 0 hic, List.getD_eq_getElem ind 0 hi]

theorem map_range_getD (l : List ℕ) :
    (List.range l.length).map (fun i => l.getD i 0) = l := by
  apply List.ext_getElem
  · simp
  · intro i h1 h2
    rw [List.getElem_map, List.getElem_range, List.getD_eq_getElem l 0 (by simpa using h1)]

theorem getD_map_range {β : Type} (d : β) (g : ℕ → β) {k j : ℕ} (hj : j < k) :
    ((List.range k).map g).getD j d = g j := by
  rw [List.getD_eq_getElem _ d (by simpa using hj), List.getElem_map, List.getElem_range]

theorem akUnflatten_blocks (cont₂ : List ℚ) (ind₂ : List ℕ) (m : ℕ)
    (hlen₂ : cont₂.length = ind₂.length)
    (hsorted₂ : ind₂.Sorted (· ≤ ·))
    (hbound₂ : ∀ a ∈ ind₂, a ≤ m)
    (counts : List ℕ)
    (hcounts : counts
      = ((List.range (m + 1)).map (fun j => rowFilter j cont₂ ind₂)).map List.length) :
    akUnflatten cont₂ counts
      = some ((List.range (m + 1)).map (fun j => rowFilter j cont₂ ind₂)) := by
  subst hcounts
  have hA : (List.range (m + 1)).flatMap (fun j => rowFilter j cont₂ ind₂) = cont₂ :=
    flatMap_rowFilter_of_sorted m ind₂ cont₂ hlen₂ hsorted₂ hbound₂
  generalize hbs : (List.range (m + 1)).map (fun j => rowFilter j cont₂ ind₂) = bs
  have hflat : cont₂ = bs.flatten := by
    rw [← hbs, ← List.flatMap_def, hA]
  rw [hflat, akUnflatten, if_pos (List.length_flatten bs).symm, unflatten_flatten]

/-- Indexed decoding through any argsort meeting `np.argsort`'s documented
contract recovers the row structure: the result has one row per original
row and each decoded row is a permutation of the corresponding original
row (with the original row order; only the order inside a row is at the
mercy of the sort's unspecified tie-breaking). -/
theorem from_cf_indexed_perm_rows (f : List ℕ → List ℕ) (x : List (List ℚ))
    (cont : List ℚ) (ind : List ℕ)
    (hne : x ≠ []) (hlast : x.getD (x.length - 1) [] ≠ [])
    (hspec : npArgsortSpec ind (f ind))
    (hlen : cont.length = ind.length)
    (hbound : ∀ i ∈ ind, i < x.length)
    (hrows : ∀ j, j < x.length → ((rowFilter j cont ind).Perm (x.getD j []))) :
    ∃ y, from_cf_indexed f cont ind = some y
      ∧ y.length = x.length
      ∧ ∀ j, j < x.length → ((y.getD j []).Perm (x.getD j [])) := by
  obtain ⟨hperm, hsorted⟩ := hspec
  have hxlen : 0 < x.length := List.length_pos.mpr hne
  have hrowlast := hrows (x.length - 1) (by omega)
  have hindne : ind ≠ [] := by
    intro h0
    subst h0
    have hc : cont = [] := List.length_eq_zero.mp (by simpa using hlen)
    subst hc
    rw [rowFilter_nil_right] at hrowlast
    exact hlast hrowlast.symm.eq_nil
  have hmem : x.length - 1 ∈ ind := by
    by_contra hmem
    have hnil : rowFilter (x.length - 1) cont ind = [] :=
      rowFilter_eq_nil _ _ _ (fun b hb e => hmem (e ▸ hb))
    rw [hnil] at hrowlast
    exact hlast hrowlast.symm.eq_nil
  have hmax : natMax ind = x.length - 1 :=
    le_antisymm (natMax_le (fun i hi => by have := hbound i hi; omega)) (le_natMax hmem)
  have hm1 : natMax ind + 1 = x.length := by omega
  have hlen₂ : ((f ind).map (fun i => cont.getD i 0)).length
      = ((f ind).map (fun i => ind.getD i 0)).length := by simp
  have hzip : (((f ind).map (fun i => cont.getD i 0)).zip
        ((f ind).map (fun i => ind.getD i 0))).Perm (cont.zip ind) := by
    rw [List.zip_map' _ _ (f ind), zip_eq_map_range cont ind hlen]
    exact List.Perm.map _ hperm
  have hrow₂ : ∀ j, (rowFilter j ((f ind).map (fun i => cont.getD i 0))
      ((f ind).map (fun i => ind.getD i 0))).Perm (rowFilter j cont ind) :=
    fun j => List.Perm.filterMap _ hzip
  have hind₂p : ((f ind).map (fun i => ind.getD i 0)).Perm ind := by
    have := List.Perm.map (fun i => ind.getD i 0) hperm
    rw [map_range_getD ind] at this
    exact this
  have hbound₂ : ∀ a ∈ (f ind).map (fun i => ind.getD i 0), a ≤ natMax ind :=
    fun a ha => le_natMax (hind₂p.mem_iff.mp ha)
  have hcounts : (List.range (natMax ind + 1)).map (fun j => ind.count j)
      = ((List.range (natMax ind + 1)).map
          (fun j => rowFilter j ((f ind).map (fun i => cont.getD i 0))
            ((f ind).map (fun i => ind.getD i 0)))).map List.length := by
    rw [List.map_map]
    apply List.map_congr_left
    intro j _
    show ind.count j = (rowFilter j ((f ind).map (fun i => cont.getD i 0))
      ((f ind).map (fun i => ind.getD i 0))).length
    rw [count_eq_rowFilter_length j ind cont hlen]
    exact ((hrow₂ j).length_eq).symm
  refine ⟨(List.range (natMax ind + 1)).map
      (fun j => rowFilter j ((f ind).map (fun i => cont.getD i 0))
        ((f ind).map (fun i => ind.getD i 0))), ?_, ?_, ?_⟩
  · simp only [from_cf_indexed]
    rw [if_neg (by simp [hindne]), if_neg (fun h => h hlen)]
    exact akUnflatten_blocks _ _ (natMax ind) hlen₂ hsorted hbound₂ _ hcounts
  · rw [List.length_map, List.length_range, hm1]
  · intro j hj
    rw [getD_map_range [] _ (show j < natMax ind + 1 by omega)]
    exact (hrow₂ j).trans (hrows j hj)

/-- C1 (amended).  Round-trip contract of the CF interchange encodings
(src/ragged/io/cf.py).  `from_cf_contiguous (to_cf_contiguous x)` recovers
every two-dimensional ragged `x`.  `from_cf_indexed` re-sorts by row index
with `np.argsort`, whose default kind is unstable and guarantees only a
permutation that sorts the keys; under any argsort meeting that contract,
decoding `to_cf_indexed x` — for `x` whose last row is nonempty (an
all-empty index buffer errors and trailing empty rows are dropped, because
row boundaries are rebuilt only up to the largest row index present) —
returns a value with the same row count whose rows are, row by row,
permutations of the rows of `x`, and the same holds from any reordering of
the (content, index) element pairs: re-sorting recovers row membership and
row lengths, not within-row order.  When the argsort used is the stable
one (numpy's behaviour for `kind='stable'`, or for the default kind on
buffers short enough for its insertion sort), the round-trip is exact, and
exactness survives any pair reordering that preserves the relative order
of elements within each row. -/
theorem cf_roundtrip_contract :
    (∀ x : List (List ℚ),
        from_cf_contiguous (to_cf_contiguous x).1 (to_cf_contiguous x).2 = some x)
    ∧ (∀ (f : List ℕ → List ℕ) (x : List (List ℚ)),
        x ≠ [] → x.getD (x.length - 1) [] ≠ [] →
        npArgsortSpec (to_cf_indexed x).2 (f (to_cf_indexed x).2) →
        ∃ y, from_cf_indexed f (to_cf_indexed x).1 (to_cf_indexed x).2 = some y
          ∧ y.length = x.length
          ∧ ∀ j, j < x.length → ((y.getD j []).Perm (x.getD j [])))
    ∧ (∀ (f : List ℕ → List ℕ) (x : List (List ℚ)) (cont : List ℚ) (ind : List ℕ),
        x ≠ [] → x.getD (x.length - 1) [] ≠ [] →
        npArgsortSpec ind (f ind) →
        cont.length = ind.length →
        (∀ i ∈ ind, i < x.length) →
        (∀ j, j < x.length → ((rowFilter j cont ind).Perm (x.getD j []))) →
        ∃ y, from_cf_indexed f cont ind = some y
          ∧ y.length = x.length
          ∧ ∀ j, j < x.length → ((y.getD j []).Perm (x.getD j [])))
    ∧ (∀ x : List (List ℚ), x ≠ [] → x.getD (x.length - 1) [] ≠ [] →
        from_cf_indexed stableArgsort (to_cf_indexed x).1 (to_cf_indexed x).2 = some x)
    ∧ (∀ (x : List (List ℚ)) (cont : List ℚ) (ind : List ℕ),
        x ≠ [] → x.getD (x.length - 1) [] ≠ [] →
        cont.length = ind.length →
        (∀ i ∈ ind, i < x.length) →
        (∀ j, j < x.length → rowFilter j cont ind = x.getD j []) →
        from_cf_indexed stableArgsort cont ind = some x) := by
  refine ⟨?_, ?_, from_cf_indexed_perm_rows, ?_, from_cf_indexed_eq⟩
  · intro x
    simp only [to_cf_contiguous, from_cf_contiguous, akUnflatten]
    rw [if_pos (List.length_flatten x).symm, unflatten_flatten]
  · intro f x hne hlast hspec
    apply from_cf_indexed_perm_rows f x (to_cf_indexed x).1 (to_cf_indexed x).2
      hne hlast hspec
    · show x.flatten.length = (to_cf_indexed x).2.length
      rw [ixFrom_zero, length_ixFrom x 0, List.length_flatten]
    · intro i hi
      rw [ixFrom_zero] at hi
      have := mem_ixFrom (x := x) (k := 0) hi
      omega
    · intro j hj
      rw [ixFrom_zero]
      show (rowFilter j x.flatten (ixFrom 0 x)).Perm (x.getD j [])
      rw [rowFilter_ixFrom x 0 j, if_pos ⟨Nat.zero_le j, by omega⟩, Nat.sub_zero]
  · intro x hne hlast
    apply from_cf_indexed_eq x _ _ hne hlast
    · show x.flatten.length = (ixFrom 0 x).length
      rw [length_ixFrom x 0, List.length_flatten]
    · intro i hi
      have := mem_ixFrom (x := x) (k := 0) hi
      omega
    · intro j hj
      rw [ixFrom_zero]
      show rowFilter j x.flatten (ixFrom 0 x) = x.getD j []
      rw [rowFilter_ixFrom x 0 j, if_pos ⟨Nat.zero_le j, by omega⟩, Nat.sub_zero]

/-- C1 witness: the contract evaluated at `x = [[1, 2], [3]]`, with the
stable argsort (which satisfies the `np.argsort` contract, by
`stableArgsort_spec`) standing in for the backend sort, including a decoding
from the row-interleaved pair order `([3, 1, 2], [1, 0, 0])`. -/
theorem cf_roundtrip_contract_witness :
    from_cf_contiguous (to_cf_contiguous [[1, 2], [3]]).1
        (to_cf_contiguous [[1, 2], [3]]).2 = some [[1, 2], [3]]
    ∧ (∃ y, from_cf_indexed stableArgsort (to_cf_indexed [[1, 2], [3]]).1
          (to_cf_indexed [[1, 2], [3]]).2 = some y
        ∧ y.length = 2
        ∧ ∀ j, j < 2 → ((y.getD j []).Perm (([[1, 2], [3]] : List (List ℚ)).getD j [])))
    ∧ (∃ y, from_cf_indexed stableArgsort [3, 1, 2] [1, 0, 0] = some y
        ∧ y.length = 2
        ∧ ∀ j, j < 2 → ((y.getD j []).Perm (([[1, 2], [3]] : List (List ℚ)).getD j [])))
    ∧ from_cf_indexed stableArgsort (to_cf_indexed [[1, 2], [3]]).1
        (to_cf_indexed [[1, 2], [3]]).2 = some [[1, 2], [3]]
    ∧ from_cf_indexed stableArgsort [3, 1, 2] [1, 0, 0] = some [[1, 2], [3]] :=
  ⟨cf_roundtrip_contract.1 [[1, 2], [3]],
   cf_roundtrip_contract.2.1 stableArgsort [[1, 2], [3]] (by decide) (by decide)
     (stableArgsort_spec (to_cf_indexed [[1, 2], [3]]).2),
   cf_roundtrip_contract.2.2.1 stableArgsort [[1, 2], [3]] [3, 1, 2] [1, 0, 0]
     (by decide) (by decide) (stableArgsort_spec [1, 0, 0]) (by decide) (by decide)
     (by decide),
   cf_roundtrip_contract.2.2.2.1 [[1, 2], [3]] (by decide) (by decide),
   cf_roundtrip_contract.2.2.2.2 [[1, 2], [3]] [3, 1, 2] [1, 0, 0]
     (by decide) (by decide) (by decide) (by decide) (by decide)⟩

/-- C1 counterexample: the indexed round-trip fails as universally stated.
At `x = [[1], []]` the encoding is `([1], [0])` and decoding gives `[[1]]`,
dropping the trailing empty row (the argsort of the one-position buffer
`[0]` is `[0]` under every admissible tie-breaking, so this evaluation is
argsort-independent); and at `x = [[1, 2]]` the pair list `([2, 1], [0, 0])`
is a permutation of the encoded `([1, 2], [0, 0])` yet decodes to
`[[2, 1]] ≠ [[1, 2]]` — evaluated with the stable argsort, which is exactly
what numpy's default sort performs on a two-element buffer (insertion-sort
regime) — so an arbitrary permutation of the (content, index) element order
is not tolerated. -/
theorem cf_indexed_roundtrip_counterexample :
    (to_cf_indexed [[1], []] = ([1], [0])
      ∧ from_cf_indexed stableArgsort [1] [0] = some [[1]]
      ∧ ([[1]] : List (List ℚ)) ≠ [[1], []])
    ∧ (to_cf_indexed [[1, 2]] = ([1, 2], [0, 0])
      ∧ (([2, 1] : List ℚ).zip [0, 0]).Perm (([1, 2] : List ℚ).zip [0, 0])
      ∧ from_cf_indexed stableArgsort [2, 1] [0, 0] = some [[2, 1]]
      ∧ ([[2, 1]] : List (List ℚ)) ≠ [[1, 2]]) := by decide

/-! ### Ragged nested values

General ragged values (`ak.to_list` of an awkward Array) are modelled by a
tree: a `leaf` is a numeric scalar, a `node` is a (possibly empty) Python
list.  `ragDepth` models `ndim` as awkward reports it for well-formed
(type-homogeneous) values: the number of nested list levels. -/

inductive Rag (α : Type) where
  | leaf (v : α)
  | node (children : List (Rag α))

variable {α : Type}

mutual

/-- Boolean structural equality on ragged trees. -/
def ragBEq [DecidableEq α] : Rag α → Rag α → Bool
  | .leaf a, .leaf b => decide (a = b)
  | .node xs, .node ys => ragBEqList xs ys
  | .leaf _, .node _ => false
  | .node _, .leaf _ => false

/-- Boolean structural equality on lists of ragged trees. -/
def ragBEqList [DecidableEq α] : List (Rag α) → List (Rag α) → Bool
  | [], [] => true
  | x :: xs, y :: ys => ragBEq x y && ragBEqList xs ys
  | [], _ :: _ => false
  | _ :: _, [] => false

end

mutual

theorem ragBEq_iff [DecidableEq α] : (a b : Rag α) → (ragBEq a b = true ↔ a = b)
  | .leaf x, .leaf y => by simp [ragBEq]
  | .leaf x, .node ys => by simp [ragBEq]
  | .node xs, .leaf y => by simp [ragBEq]
  | .node xs, .node ys => by
      rw [show ragBEq (.node xs) (.node ys) = ragBEqList xs ys from rfl,
        ragBEqList_iff xs ys]
      simp

theorem ragBEqList_iff [DecidableEq α] :
    (xs ys : List (Rag α)) → (ragBEqList xs ys = true ↔ xs = ys)
  | [], [] => by simp [ragBEqList]
  | [], y :: ys => by simp [ragBEqList]
  | x :: xs, [] => by simp [ragBEqList]
  | x :: xs, y :: ys => by
      rw [show ragBEqList (x :: xs) (y :: ys) = (ragBEq x y && ragBEqList xs ys) from rfl,
        Bool.and_eq_true, ragBEq_iff x y, ragBEqList_iff xs ys]
      simp

end

instance [DecidableEq α] : DecidableEq (Rag α) :=
  fun a b => decidable_of_iff (ragBEq a b = true) (ragBEq_iff a b)

instance {ε α : Type} [DecidableEq ε] [DecidableEq α] : DecidableEq (Except ε α) := fun a b =>
  match a, b with
  | .ok x, .ok y => decidable_of_iff (x = y) (by simp)
  | .error x, .error y => decidable_of_iff (x = y) (by simp)
  | .ok _, .error _ => isFalse (by simp)
  | .error _, .ok _ => isFalse (by simp)

/-- The list elements of a node (a leaf has none). -/
def childrenOf : Rag α → List (Rag α)
  | .leaf _ => []
  | .node cs => cs

/-- Python `isinstance(b, list)`. -/
def isNode : Rag α → Bool
  | .leaf _ => false
  | .node _ => true

mutual

/-- Model of `ndim`: depth of the nesting, `0` for a bare scalar. -/
def ragDepth : Rag α → ℕ
  | .leaf _ => 0
  | .node cs => 1 + ragDepthList cs

/-- Maximum depth over a list of subtrees. -/
def ragDepthList : List (Rag α) → ℕ
  | [] => 0
  | c :: cs => max (ragDepth c) (ragDepthList cs)

end

/-- Lift a two-dimensional nested list into a `Rag` value. -/
def q2 (m : List (List α)) : Rag α := .node (m.map (fun r => .node (r.map .leaf)))

/-- Lift a three-dimensional nested list into a `Rag` value. -/
def q3 (m : List (List (List α))) : Rag α := .node (m.map q2)

/-! ### Descending-length check — src/ragged/_helper_functions.py lines 31-51

`is_sorted_descending_all_levels` walks the layout: at each list level it
takes `ak.num(node, axis=1)` — the lengths of all lists one level down,
flattened across the level in order — and requires them to be
non-increasing, then recurses into the flattened content.  The recursion
depth is the number of list-type layout nodes, `ndim - 1`. -/

/-- `ak.all(lengths[:-1] >= lengths[1:])`: successive entries non-increasing. -/
def nonIncreasing : List ℕ → Bool
  | [] => true
  | [_] => true
  | a :: b :: rest => (b ≤ a) && nonIncreasing (b :: rest)

/-- One `check` round per list level: test the lengths at this level, then
recurse on the flattened content (all children, in order). -/
def goSD : ℕ → List (Rag α) → Bool
  | 0, _ => true
  | d + 1, ts =>
      nonIncreasing (ts.map (fun t => (childrenOf t).length))
        && goSD d (ts.flatMap childrenOf)

/-- Embedding of `is_sorted_descending_all_levels`. -/
def is_sorted_descending_all_levels (x : Rag α) : Bool :=
  goSD (ragDepth x - 1) (childrenOf x)

/-! ### Ragged matrix transpose — src/ragged/_spec_linear_algebra_functions.py
lines 207-252 -/

/-- `max((len(row) for row in mat), default=0)`. -/
def maxRowLen (mat : List (Rag α)) : ℕ :=
  mat.foldr (fun r acc => max (childrenOf r).length acc) 0

/-- `is_matrix_level`: some row is a nonempty list whose first element is a
numeric scalar. -/
def isMatrixLevel (b : List (Rag α)) : Bool :=
  b.any (fun r => match r with
    | .node (.leaf _ :: _) => true
    | _ => false)

/-- `transpose_matrix`: new lists indexed by original column position,
skipping rows too short to have that column. -/
def transposeMat (mat : List (Rag α)) : List (Rag α) :=
  (List.range (maxRowLen mat)).map
    (fun i => Rag.node (mat.filterMap (fun r => (childrenOf r)[i]?)))

/-- `recurse`: descend while every element is a list, transposing the
deepest levels that form a matrix.  The fuel bounds the recursion depth;
`matrix_transpose` passes the tree depth, which the Python recursion never
exceeds. -/
def recurseT : ℕ → List (Rag α) → List (Rag α)
  | 0, batch => batch
  | fuel + 1, batch =>
      if batch.all isNode then
        if isMatrixLevel batch then transposeMat batch
        else batch.map (fun b => Rag.node (recurseT fuel (childrenOf b)))
      else batch

/-- Error message raised when the descending-length precondition fails. -/
def sortedDescendingMsg : String :=
  "Ragged dimension's lists must be sorted from longest to shortest, which is the only way that makes left-aligned ragged transposition possible."

/-- Embedding of `matrix_transpose`. -/
def matrix_transpose (x : Rag α) : Except String (Rag α) :=
  if ragDepth x < 2 then .error "Input must have at least 2 dimensions"
  else if !(is_sorted_descending_all_levels x) then .error sortedDescendingMsg
  else .ok (.node (recurseT (ragDepth x) (childrenOf x)))

example : matrix_transpose (q3 [[[1, 2, 3], [4, 4]]] : Rag ℚ)
    = .ok (q3 [[[1, 4], [2, 4], [3]]]) := by decide
example : matrix_transpose (q3 [[[1, 2, 3], [4]]] : Rag ℚ)
    = .ok (q3 [[[1, 4], [2], [3]]]) := by decide
example : matrix_transpose (q3 [[[11/10], [2, 3]]] : Rag ℚ) = .error sortedDescendingMsg := by
  decide
example : matrix_transpose (q2 [[1, 2], [3, 4]] : Rag ℚ) = .ok (q2 [[1, 3], [2, 4]]) := by
  decide
example : matrix_transpose (q3 [[[], []]] : Rag ℚ) = .ok (q3 [[[], []]]) := by decide
example : matrix_transpose (q3 [[[1, 2], []]] : Rag ℚ) = .ok (q3 [[[1], [2]]]) := by decide
example : matrix_transpose (q3 [[[1, 2], [3]]] : Rag ℚ) = .ok (q3 [[[1, 3], [2]]]) := by
  decide
example : matrix_transpose (q2 [[1], [2, 3]] : Rag ℚ) = .error sortedDescendingMsg := by
  decide
example : matrix_transpose (.leaf (5 : ℚ)) = .error "Input must have at least 2 dimensions" := by
  decide

/-- The flattened list of subtrees `k` levels below the given ones, in order:
level `k` of the layout walk. -/
def levelOf : ℕ → List (Rag α) → List (Rag α)
  | 0, ts => ts
  | k + 1, ts => levelOf k (ts.flatMap childrenOf)

theorem nonIncreasing_iff_chain :
    ∀ l : List ℕ, nonIncreasing l = true ↔ List.Chain' (fun a b => b ≤ a) l
  | [] => by simp [nonIncreasing]
  | [_] => by simp [nonIncreasing]
  | a :: b :: rest => by
      rw [show nonIncreasing (a :: b :: rest)
            = (decide (b ≤ a) && nonIncreasing (b :: rest)) from rfl,
        Bool.and_eq_true, nonIncreasing_iff_chain (b :: rest), List.chain'_cons]
      simp

theorem goSD_iff (d : ℕ) :
    ∀ ts : List (Rag α), goSD d ts = true
      ↔ ∀ k < d, nonIncreasing ((levelOf k ts).map (fun t => (childrenOf t).length)) = true := by
  induction d with
  | zero => intro ts; simp [goSD]
  | succ d ih =>
      intro ts
      rw [show goSD (d + 1) ts
            = (nonIncreasing (ts.map (fun t => (childrenOf t).length))
                && goSD d (ts.flatMap childrenOf)) from rfl,
        Bool.and_eq_true, ih (ts.flatMap childrenOf)]
      constructor
      · rintro ⟨h0, hrest⟩ k hk
        match k with
        | 0 => exact h0
        | k + 1 => exact hrest k (by omega)
      · intro h
        exact ⟨h 0 (by omega), fun k hk => h (k + 1) (by omega)⟩

/-- C3.  For every array of rank at least two whose nested-list lengths fail
to be non-increasing at some level (a list is followed by a longer one),
`matrix_transpose` raises the descriptive `ValueError` rather than returning
a value; the message names the "sorted from longest to shortest"
requirement; in particular `matrix_transpose([[ [1.1], [2, 3] ]])` raises
this error. -/
theorem matrix_transpose_nondescending_error :
    (∀ x : Rag ℚ, 2 ≤ ragDepth x →
      (∃ k, k < ragDepth x - 1 ∧
        ¬ List.Chain' (fun a b => b ≤ a)
            ((levelOf k (childrenOf x)).map (fun t => (childrenOf t).length))) →
      matrix_transpose x = .error sortedDescendingMsg)
    ∧ matrix_transpose (q3 [[[11 / 10], [2, 3]]] : Rag ℚ) = .error sortedDescendingMsg
    ∧ ∃ pre post, sortedDescendingMsg = pre ++ "sorted from longest to shortest" ++ post := by
  refine ⟨?_, by decide,
    ⟨"Ragged dimension's lists must be ",
     ", which is the only way that makes left-aligned ragged transposition possible.",
     rfl⟩⟩
  intro x h2 hbad
  obtain ⟨k, hk, hchain⟩ := hbad
  have hfalse : is_sorted_descending_all_levels x = false := by
    rw [is_sorted_descending_all_levels]
    cases hsd : goSD (ragDepth x - 1) (childrenOf x) with
    | false => rfl
    | true =>
        exact absurd ((nonIncreasing_iff_chain _).mp
          ((goSD_iff (ragDepth x - 1) (childrenOf x)).mp hsd k hk)) hchain
  rw [matrix_transpose, if_neg (by omega), if_pos (by simp [hfalse])]

/-- C3 witness: the error evaluated at `[[ [1.1], [2, 3] ]]` through the
general theorem. -/
theorem matrix_transpose_nondescending_error_witness :
    matrix_transpose (q3 [[[11 / 10], [2, 3]]] : Rag ℚ) = .error sortedDescendingMsg :=
  matrix_transpose_nondescending_error.1 (q3 [[[11 / 10], [2, 3]]]) (by decide)
    ⟨1, by decide, fun hc => absurd ((nonIncreasing_iff_chain _).mpr hc) (by decide)⟩

/-! ### Ragged matmul — src/ragged/_spec_linear_algebra_functions.py lines 19-204 -/

/-- Scalar value of a tree expected to be a leaf; matmul's row-of-scalars
views only apply this at the innermost level of a rank-1/rank-2 value,
where every child is a leaf. -/
def toQ [Zero α] : Rag α → α
  | .leaf v => v
  | .node _ => 0

/-- View a list of leaves as the list of their scalar values. -/
def scalarsOf [Zero α] (l : List (Rag α)) : List α := l.map toQ

/-- Modelled from the spec: `safe_max_num` is imported by
`_spec_linear_algebra_functions.py` from `._helper_functions` but is absent
from the source tree.  Per the spec (dense zero-padded contraction "up to
the per-row maximum column count"), `safe_max_num(x, axis=-1)` is the
maximum length of the innermost lists of the two-dimensional `x`, `0` when
there are none. -/
def safe_max_num (x : Rag α) : ℕ :=
  (childrenOf x).foldr (fun r acc => max (childrenOf r).length acc) 0

/-- `safe_max_num` applied to a plain list of rows, as used inside
`_matmul_2d`. -/
def maxColsOf (a : List (List α)) : ℕ := a.foldr (fun r acc => max r.length acc) 0

/-- `_promote_1d_to_2d`: a 1-D value becomes its single row; otherwise each
element becomes a row (wrapping a bare scalar in a singleton list). -/
def promote1dTo2d [Zero α] (x : Rag α) : List (List α) :=
  if ragDepth x = 1 then [scalarsOf (childrenOf x)]
  else (childrenOf x).map (fun r => match r with
    | .node cs => scalarsOf cs
    | .leaf v => [v])

/-- `sum(a * b for a, b in zip(x1_list, x2_list))`. -/
def dotQ [Zero α] [Add α] [Mul α] (a b : List α) : α :=
  (List.zipWith (fun u v => u * v) a b).sum

/-- `_matmul_2d`: ragged-safe two-dimensional matrix product by dense
zero-padded contraction.  `K` is the per-row maximum column count of `a`,
`N` that of `b`; rows shorter than the contraction width contribute zeros
through the `getD _ _ 0` padding, and empty rows of `a` yield empty output
rows. -/
def matmul2d [Zero α] [Add α] [Mul α] (a b : List (List α)) :
    Except String (List (List α)) :=
  if a.isEmpty || b.isEmpty then .ok []
  else
    let maxColsA := maxColsOf a
    let maxColsB := maxColsOf b
    let effRowsB := if b.all (fun r => r.isEmpty) then 0 else b.length
    if maxColsA ≠ effRowsB ∧ ¬(maxColsA = 0 ∧ effRowsB = 0) then
      .error "Shape mismatch in core dimensions"
    else
      let K := maxColsA
      let N := maxColsB
      let prod := fun (r c : ℕ) =>
        ((List.range K).map (fun k => ((a.getD r []).getD k 0) * ((b.getD k []).getD c 0))).sum
      .ok ((List.range a.length).map (fun r =>
        if (a.getD r []).isEmpty then []
        else (List.range N).map (fun c => prod r c)))

/-- The branch of `matmul` for operands of rank at most two (after any 1-D
promotion): run `_matmul_2d` on the promoted rows, then — when both
operands are two-dimensional with one row on the left and a per-row maximum
column count of one on the right — collapse the 1×1 block to the
one-dimensional `array([out2d[0][0]])`. -/
def matmulLE2 [Zero α] [Add α] [Mul α] (x1 x2 : Rag α) : Except String (Rag α) :=
  match matmul2d (promote1dTo2d x1) (promote1dTo2d x2) with
  | .error e => .error e
  | .ok out2d =>
      if ragDepth x1 = 2 ∧ ragDepth x2 = 2
          ∧ (childrenOf x1).length = 1 ∧ safe_max_num x2 = 1 then
        -- out2d[0][0]; the index is in range whenever this branch is
        -- reached, because safe_max_num x2 = 1 forces N = 1 and a nonempty
        -- first output row
        .ok (.node [.leaf ((out2d.getD 0 []).getD 0 0)])
      else .ok (q2 out2d)

/-- Embedding of `matmul` (dispatch on the operand ranks; the recursive
calls of the 1-D promotion paths always land in the rank-≤2 branch and are
inlined as `matmulLE2`; the >2-D batch path broadcasts batch counts with
`i % B`). -/
def matmul [Zero α] [Add α] [Mul α] (x1 x2 : Rag α) : Except String (Rag α) :=
  if ragDepth x1 = 0 ∨ ragDepth x2 = 0 then
    .error "Zero-dimensional arrays are not allowed"
  else if ragDepth x1 = 1 ∧ ragDepth x2 = 1 then
    if (childrenOf x1).length ≠ (childrenOf x2).length then
      .error "Shape mismatch for 1D arrays"
    else .ok (.leaf (dotQ (scalarsOf (childrenOf x1)) (scalarsOf (childrenOf x2))))
  else if ragDepth x1 = 1 ∧ ragDepth x2 = 2 then
    match matmulLE2 (q2 [scalarsOf (childrenOf x1)]) x2 with
    | .error e => .error e
    | .ok res => .ok ((childrenOf res).getD 0 (.node []))
  else if ragDepth x1 = 2 ∧ ragDepth x2 = 1 then
    match matmulLE2 x1 (q2 ((scalarsOf (childrenOf x2)).map (fun v => [v]))) with
    | .error e => .error e
    | .ok res =>
        if ragDepth res = 2 then
          if (childrenOf res).length ≠ 0 then
            -- row[0] for each row; rows are nonempty whenever the source
            -- reaches this line on well-formed input
            .ok (.node ((childrenOf res).map (fun row => (childrenOf row).getD 0 (.leaf 0))))
          else .ok (.node [])
        else .ok res
  else if ragDepth x1 ≤ 2 ∧ ragDepth x2 ≤ 2 then matmulLE2 x1 x2
  else
    let b1 := if ragDepth x1 ≤ 2 then [x1] else childrenOf x1
    let b2 := if ragDepth x2 ≤ 2 then [x2] else childrenOf x2
    if b1.length ≠ b2.length ∧ b1.length ≠ 1 ∧ b2.length ≠ 1 then
      .error "Broadcast dimension mismatch"
    else
      match (List.range (max b1.length b2.length)).mapM (fun i =>
          matmul2d (promote1dTo2d (b1.getD (i % b1.length) (.node [])))
            (promote1dTo2d (b2.getD (i % b2.length) (.node [])))) with
      | .error e => .error e
      | .ok results => .ok (q3 results)

example : matmul (q3 [[[2]], [[3]]] : Rag ℤ) (q3 [[[4]], [[5]]]) = .ok (q3 [[[8]], [[15]]]) := by
  decide
example : matmul (q3 [[[1, 0], [0, 1]], [[2, 3]]] : Rag ℤ) (q3 [[[1], [1]], [[4], [5]]])
    = .ok (q3 [[[1], [1]], [[23]]]) := by decide
example : matmul (q3 [[[1, 2], [3]]] : Rag ℤ) (q3 [[[1], [2]]]) = .ok (q3 [[[5], [3]]]) := by
  decide
example : matmul (.leaf (5 : ℤ)) (q2 [[1]]) = .error "Zero-dimensional arrays are not allowed" := by
  decide
example : matmul (q2 [[1, 2]] : Rag ℤ) (q2 [[3], [4]]) = .ok (.node [.leaf 11]) := by decide
example : matmul (q2 [[1], [2]] : Rag ℤ) (q2 [[3, 4]]) = .ok (q2 [[3, 4], [6, 8]]) := by decide

/-- C2 evaluated on the claim's scenarios.  `matmul([[2]], [[4]])` returns
the one-dimensional `[8]` — the rank-2 1×1 product is collapsed by the
`rowsA == 1 and colsB == 1` branch — not the two-dimensional `[[8]]` that
the claim (and the function's own docstring, which promises shape `(M, N)`
for 2-D×2-D operands) states.  The identity and ragged zero-padding
scenarios hold as claimed. -/
theorem matmul_scenarios :
    matmul (q2 [[2]] : Rag ℤ) (q2 [[4]]) = .ok (.node [.leaf 8])
    ∧ (Rag.node [.leaf (8 : ℤ)]) ≠ q2 [[8]]
    ∧ matmul (q2 [[1, 0], [0, 1]] : Rag ℤ) (q2 [[1], [1]]) = .ok (q2 [[1], [1]])
    ∧ matmul (q3 [[[], [1, 2]], [[]]] : Rag ℤ) (q3 [[[], [3]], [[]]])
        = .ok (q3 [[[], [6]], [[]]]) := by decide

/-! ### Transpose on regular matrices (claim C4 groundwork) -/

/-- A row of scalars as the tree `matrix_transpose` sees it. -/
def rowNode (r : List ℚ) : Rag ℚ := .node (r.map .leaf)

theorem q2_eq_rowNodes (m : List (List ℚ)) : q2 m = .node (m.map rowNode) := rfl

/-- Mathematical transpose of a regular matrix with `n` columns. -/
def transposeQ (n : ℕ) (rows : List (List ℚ)) : List (List ℚ) :=
  (List.range n).map (fun i => rows.map (fun r => r.getD i 0))

theorem ragDepthList_leaves (r : List ℚ) : ragDepthList (r.map Rag.leaf) = 0 := by
  induction r with
  | nil => rfl
  | cons v vs ih =>
      rw [List.map_cons,
        show ragDepthList (Rag.leaf v :: vs.map Rag.leaf)
          = max (ragDepth (Rag.leaf v)) (ragDepthList (vs.map Rag.leaf)) from rfl,
        ih]
      rfl

theorem ragDepth_rowNode (r : List ℚ) : ragDepth (rowNode r) = 1 := by
  rw [rowNode, show ragDepth (Rag.node (r.map Rag.leaf))
      = 1 + ragDepthList (r.map Rag.leaf) from rfl, ragDepthList_leaves]

theorem ragDepthList_rowNodes (rows : List (List ℚ)) :
    ragDepthList (rows.map rowNode) = if rows = [] then 0 else 1 := by
  induction rows with
  | nil => rfl
  | cons r rs ih =>
      rw [List.map_cons,
        show ragDepthList (rowNode r :: rs.map rowNode)
          = max (ragDepth (rowNode r)) (ragDepthList (rs.map rowNode)) from rfl,
        ragDepth_rowNode, ih, if_neg (List.cons_ne_nil r rs)]
      cases rs with
      | nil => rw [if_pos rfl]; omega
      | cons a as => rw [if_neg (List.cons_ne_nil a as)]; omega

theorem ragDepth_q2 (rows : List (List ℚ)) (hne : rows ≠ []) : ragDepth (q2 rows) = 2 := by
  rw [q2_eq_rowNodes,
    show ragDepth (Rag.node (rows.map rowNode))
      = 1 + ragDepthList (rows.map rowNode) from rfl,
    ragDepthList_rowNodes, if_neg hne]

theorem nonIncreasing_of_const (n : ℕ) :
    ∀ l : List ℕ, (∀ a ∈ l, a = n) → nonIncreasing l = true
  | [], _ => rfl
  | [_], _ => rfl
  | a :: b :: rest, h => by
      rw [show nonIncreasing (a :: b :: rest)
            = (decide (b ≤ a) && nonIncreasing (b :: rest)) from rfl,
        Bool.and_eq_true]
      have ha := h a (by simp)
      have hb := h b (by simp)
      exact ⟨by simp [ha, hb],
        nonIncreasing_of_const n (b :: rest) (fun x hx => h x (List.mem_cons_of_mem a hx))⟩

theorem sorted_q2_of_const (rows : List (List ℚ)) (n : ℕ) (hne : rows ≠ [])
    (hlen : ∀ r ∈ rows, r.length = n) :
    is_sorted_descending_all_levels (q2 rows) = true := by
  rw [is_sorted_descending_all_levels, ragDepth_q2 rows hne]
  show goSD 1 (rows.map rowNode) = true
  rw [show goSD 1 (rows.map rowNode)
      = (nonIncreasing ((rows.map rowNode).map (fun t => (childrenOf t).length))
          && goSD 0 ((rows.map rowNode).flatMap childrenOf)) from rfl]
  have h1 : nonIncreasing ((rows.map rowNode).map (fun t => (childrenOf t).length)) = true := by
    apply nonIncreasing_of_const n
    intro a ha
    simp only [List.map_map, List.mem_map, Function.comp] at ha
    obtain ⟨r, hr, rfl⟩ := ha
    simpa [rowNode, childrenOf] using hlen r hr
  rw [h1]
  rfl

theorem all_isNode_rowNodes (rows : List (List ℚ)) :
    (rows.map rowNode).all isNode = true := by
  simp only [List.all_eq_true, List.mem_map]
  rintro t ⟨r, _, rfl⟩
  rfl

theorem maxRowLen_rowNodes (rows : List (List ℚ)) (n : ℕ)
    (hlen : ∀ r ∈ rows, r.length = n) :
    maxRowLen (rows.map rowNode) = if rows = [] then 0 else n := by
  induction rows with
  | nil => rfl
  | cons r rs ih =>
      rw [List.map_cons,
        show maxRowLen (rowNode r :: rs.map rowNode)
          = max (childrenOf (rowNode r)).length (maxRowLen (rs.map rowNode)) from rfl,
        ih (fun x hx => hlen x (List.mem_cons_of_mem r hx)), if_neg (List.cons_ne_nil r rs)]
      have hr : (childrenOf (rowNode r)).length = n := by
        simpa [rowNode, childrenOf] using hlen r (by simp)
      rw [hr]
      cases rs with
      | nil => rw [if_pos rfl]; omega
      | cons a as => rw [if_neg (List.cons_ne_nil a as)]; omega

theorem filterMap_col (rows : List (List ℚ)) (i : ℕ) (hi : ∀ r ∈ rows, i < r.length) :
    (rows.map rowNode).filterMap (fun t => (childrenOf t)[i]?)
      = rows.map (fun r => Rag.leaf (r.getD i 0)) := by
  induction rows with
  | nil => rfl
  | cons r rs ih =>
      rw [List.map_cons, List.filterMap_cons]
      have hlt : i < r.length := hi r (by simp)
      have hr : (childrenOf (rowNode r))[i]? = some (Rag.leaf (r.getD i 0)) := by
        show (r.map Rag.leaf)[i]? = _
        rw [List.getElem?_map, List.getElem?_eq_getElem hlt,
          List.getD_eq_getElem r 0 hlt]
        rfl
      rw [hr, ih (fun x hx => hi x (List.mem_cons_of_mem r hx)), List.map_cons]

theorem matrix_transpose_q2_regular (rows : List (List ℚ)) (n : ℕ)
    (hne : rows ≠ []) (hn : 0 < n) (hlen : ∀ r ∈ rows, r.length = n) :
    matrix_transpose (q2 rows) = .ok (q2 (transposeQ n rows)) := by
  rw [matrix_transpose, if_neg (by rw [ragDepth_q2 rows hne]; omega),
    if_neg (by rw [sorted_q2_of_const rows n hne hlen]; simp),
    ragDepth_q2 rows hne]
  show Except.ok (Rag.node (recurseT 2 (rows.map rowNode))) = _
  have hmat : isMatrixLevel (rows.map rowNode) = true := by
    match rows, hne with
    | r :: rs, _ =>
      have : r.length = n := hlen r (by simp)
      match r, hn, this with
      | v :: vs, _, _ =>
        simp [isMatrixLevel, rowNode]
  rw [show recurseT 2 (rows.map rowNode)
      = (if (rows.map rowNode).all isNode then
          if isMatrixLevel (rows.map rowNode) then transposeMat (rows.map rowNode)
          else (rows.map rowNode).map (fun b => Rag.node (recurseT 1 (childrenOf b)))
        else rows.map rowNode) from rfl,
    if_pos (by rw [all_isNode_rowNodes]), if_pos (by rw [hmat])]
  have hcols : transposeMat (rows.map rowNode)
      = (transposeQ n rows).map rowNode := by
    rw [transposeMat, maxRowLen_rowNodes rows n hlen, if_neg hne, transposeQ,
      List.map_map]
    apply List.map_congr_left
    intro i hi
    have hi2 : ∀ r ∈ rows, i < r.length := by
      intro r hr
      rw [hlen r hr]
      exact List.mem_range.mp hi
    rw [filterMap_col rows i hi2]
    simp [rowNode, Function.comp, List.map_map]
  rw [hcols, q2_eq_rowNodes]

theorem matrix_transpose_q2_zero_cols (rows : List (List ℚ)) (hne : rows ≠ [])
    (hlen : ∀ r ∈ rows, r = []) :
    matrix_transpose (q2 rows) = .ok (q2 rows) := by
  rw [matrix_transpose, if_neg (by rw [ragDepth_q2 rows hne]; omega),
    if_neg (by
      rw [sorted_q2_of_const rows 0 hne (fun r hr => by rw [hlen r hr]; rfl)]
      simp),
    ragDepth_q2 rows hne]
  show Except.ok (Rag.node (recurseT 2 (rows.map rowNode))) = _
  have hmat : isMatrixLevel (rows.map rowNode) = false := by
    simp only [isMatrixLevel, List.any_eq_false, List.mem_map]
    rintro t ⟨r, hr, rfl⟩
    rw [hlen r hr]
    decide
  rw [show recurseT 2 (rows.map rowNode)
      = (if (rows.map rowNode).all isNode then
          if isMatrixLevel (rows.map rowNode) then transposeMat (rows.map rowNode)
          else (rows.map rowNode).map (fun b => Rag.node (recurseT 1 (childrenOf b)))
        else rows.map rowNode) from rfl,
    if_pos (by rw [all_isNode_rowNodes]), if_neg (by rw [hmat]; simp), List.map_map]
  rw [q2_eq_rowNodes]
  have : ∀ r ∈ rows, ((fun b => Rag.node (recurseT 1 (childrenOf b))) ∘ rowNode) r
      = rowNode r := by
    intro r hr
    rw [hlen r hr]
    rfl
  rw [List.map_congr_left this]

theorem transposeQ_transposeQ (rows : List (List ℚ)) (n : ℕ)
    (hlen : ∀ r ∈ rows, r.length = n) :
    transposeQ rows.length (transposeQ n rows) = rows := by
  apply List.ext_getElem
  · simp [transposeQ]
  · intro j h1 h2
    have hj : j < rows.length := by simpa [transposeQ] using h1
    simp only [transposeQ, List.getElem_map, List.getElem_range]
    apply List.ext_getElem
    · simp [hlen rows[j] (List.getElem_mem h2)]
    · intro i hi1 hi2
      have hin : i < n := by simpa using hi1
      simp only [List.getElem_map, List.getElem_range]
      rw [List.getD_eq_getElem _ 0 (by simpa using hj), List.getElem_map,
        List.getD_eq_getElem _ 0 (by rw [hlen rows[j] (List.getElem_mem h2)]; exact hin)]

/-- C4 (amended).  Ragged matrix transpose is an involution on every regular
(non-ragged) matrix: transposing twice returns the original, including
matrices with zero columns.  On descending-length ragged input each deepest
matrix block is transposed by column position, rows too short to have that
column being skipped — so `matrix_transpose([[ [1,2,3], [4,4] ]])` is
`[[ [1,4], [2,4], [3] ]]` (the length-2 second row contributes its second
element to column 1) — and an all-empty block transposes to an
equally-empty block. -/
theorem matrix_transpose_involution_and_blocks :
    (∀ (rows : List (List ℚ)) (n : ℕ), rows ≠ [] → (∀ r ∈ rows, r.length = n) →
        ∃ y, matrix_transpose (q2 rows) = .ok y ∧ matrix_transpose y = .ok (q2 rows))
    ∧ matrix_transpose (q3 [[[1, 2, 3], [4, 4]]] : Rag ℚ)
        = .ok (q3 [[[1, 4], [2, 4], [3]]])
    ∧ matrix_transpose (q3 [[[], []]] : Rag ℚ) = .ok (q3 [[[], []]]) := by
  refine ⟨?_, by decide, by decide⟩
  intro rows n hne hlen
  rcases Nat.eq_zero_or_pos n with hn | hn
  · subst hn
    have hrows : ∀ r ∈ rows, r = [] := fun r hr => List.length_eq_zero.mp (hlen r hr)
    exact ⟨q2 rows, matrix_transpose_q2_zero_cols rows hne hrows,
      matrix_transpose_q2_zero_cols rows hne hrows⟩
  · refine ⟨q2 (transposeQ n rows), matrix_transpose_q2_regular rows n hne hn hlen, ?_⟩
    have h2 : matrix_transpose (q2 (transposeQ n rows))
        = .ok (q2 (transposeQ rows.length (transposeQ n rows))) := by
      apply matrix_transpose_q2_regular
      · simp [transposeQ]
        omega
      · exact List.length_pos.mpr hne
      · intro c hc
        simp only [transposeQ, List.mem_map] at hc
        obtain ⟨i, _, rfl⟩ := hc
        simp
    rw [h2, transposeQ_transposeQ rows n hlen]

/-- C4 witness: the involution evaluated at the regular matrix
`[[1, 2], [3, 4]]` through the general theorem. -/
theorem matrix_transpose_involution_witness :
    ∃ y, matrix_transpose (q2 [[1, 2], [3, 4]] : Rag ℚ) = .ok y
      ∧ matrix_transpose y = .ok (q2 [[1, 2], [3, 4]]) :=
  matrix_transpose_involution_and_blocks.1 [[1, 2], [3, 4]] 2 (by decide) (by decide)

/-- C4 counterexample: the claim's concrete example is false on the code.
`matrix_transpose([[ [1,2,3], [4,4] ]])` — the second row having the two
elements 4, 4 — yields `[[ [1,4], [2,4], [3] ]]`, because column 1 collects
the second element of every row of length at least 2; it does not yield the
claimed `[[ [1,4], [2], [3] ]]`. -/
theorem matrix_transpose_claimed_example_false :
    matrix_transpose (q3 [[[1, 2, 3], [4, 4]]] : Rag ℚ)
        = .ok (q3 [[[1, 4], [2, 4], [3]]])
    ∧ matrix_transpose (q3 [[[1, 2, 3], [4, 4]]] : Rag ℚ)
        ≠ .ok (q3 [[[1, 4], [2], [3]]]) := by decide

/-! ### Shape/dtype inference — src/ragged/_spec_array_object.py lines 39-55

`_shape_dtype` walks an awkward layout: variable-length list nodes
(`ListArray`, `ListOffsetArray`) contribute `None` to the shape, fixed-size
`RegularArray` nodes contribute their size, and the walk must end in a flat
numeric buffer (`NumpyArray`, possibly with trailing fixed inner dimensions
from its data's shape; an `EmptyArray` is promoted to a float64
`NumpyArray`).  Any other terminal raises a `TypeError`. -/

/-- Numpy scalar types as carried by a `NumpyArray` buffer. -/
inductive NpType where
  | bool_ | int8 | int16 | int32 | int64 | uint8 | uint16 | uint32 | uint64
  | float32 | float64 | complex64 | complex128
  | other (name : String)
deriving DecidableEq

/-- Awkward layout nodes relevant to `_shape_dtype`: the two variable-length
list nodes, fixed-size regular nodes, numeric buffers (with the trailing
dimensions `data.shape[1:]`), the typeless empty buffer, and a stand-in
`record` for any unsupported non-list non-buffer node. -/
inductive Content where
  | listOffset (length : ℕ) (content : Content)
  | listArr (length : ℕ) (content : Content)
  | regular (length : ℕ) (size : ℕ) (content : Content)
  | numpy (length : ℕ) (trailing : List ℕ) (dtype : NpType)
  | empty (length : ℕ)
  | record (length : ℕ)
deriving DecidableEq

/-- `len(layout)`. -/
def Content.len : Content → ℕ
  | .listOffset n _ => n
  | .listArr n _ => n
  | .regular n _ _ => n
  | .numpy n _ _ => n
  | .empty n => n
  | .record n => n

/-- The `while isinstance(node, (ListArray, ListOffsetArray, RegularArray))`
loop of `_shape_dtype`, carrying the accumulated shape. -/
def sdGo : Content → List (Option ℕ) → Except String (List (Option ℕ) × NpType)
  | .listOffset _ c, shape => sdGo c (shape ++ [none])
  | .listArr _ c, shape => sdGo c (shape ++ [none])
  | .regular _ size c, shape => sdGo c (shape ++ [some size])
  | .empty _, shape => .ok (shape, .float64)
  | .numpy _ trailing d, shape => .ok (shape ++ trailing.map some, d)
  | .record _, _ =>
      .error "Awkward Array type must have regular and irregular lists only"

/-- Embedding of `_shape_dtype`. -/
def _shape_dtype (layout : Content) : Except String (List (Option ℕ) × NpType) :=
  sdGo layout [some layout.len]

/-- The per-level shape entries contributed by the list-type nodes. -/
def listLevels : Content → List (Option ℕ)
  | .listOffset _ c => none :: listLevels c
  | .listArr _ c => none :: listLevels c
  | .regular _ s c => some s :: listLevels c
  | _ => []

/-- Which nesting levels are variable-length. -/
def varMask : Content → List Bool
  | .listOffset _ c => true :: varMask c
  | .listArr _ c => true :: varMask c
  | .regular _ _ c => false :: varMask c
  | _ => []

/-- The terminal (non-list) node of a layout. -/
def terminalOf : Content → Content
  | .listOffset _ c => terminalOf c
  | .listArr _ c => terminalOf c
  | .regular _ _ c => terminalOf c
  | t => t

/-- Is the node a flat numeric buffer (`NumpyArray`, or `EmptyArray` which
is promoted to one)? -/
def isBuffer : Content → Bool
  | .numpy _ _ _ => true
  | .empty _ => true
  | _ => false

/-- Trailing fixed dimensions of the terminal buffer. -/
def trailingOf (layout : Content) : List ℕ :=
  match terminalOf layout with
  | .numpy _ t _ => t
  | _ => []

/-- Dtype of the terminal buffer (`float64` for the promoted empty buffer). -/
def dtypeOfTerminal (layout : Content) : NpType :=
  match terminalOf layout with
  | .numpy _ _ d => d
  | _ => .float64

/-- Nesting depth: the outer dimension plus one per list-type level. -/
def nestingDepth (layout : Content) : ℕ := 1 + (listLevels layout).length

theorem sdGo_ok (layout : Content) (h : isBuffer (terminalOf layout) = true) :
    ∀ acc : List (Option ℕ),
      sdGo layout acc
        = .ok (acc ++ (listLevels layout ++ (trailingOf layout).map some),
               dtypeOfTerminal layout) := by
  induction layout with
  | listOffset n c ih =>
      intro acc
      rw [show sdGo (.listOffset n c) acc = sdGo c (acc ++ [none]) from rfl,
        ih (by simpa [terminalOf] using h), List.append_assoc]
      rfl
  | listArr n c ih =>
      intro acc
      rw [show sdGo (.listArr n c) acc = sdGo c (acc ++ [none]) from rfl,
        ih (by simpa [terminalOf] using h), List.append_assoc]
      rfl
  | regular n s c ih =>
      intro acc
      rw [show sdGo (.regular n s c) acc = sdGo c (acc ++ [some s]) from rfl,
        ih (by simpa [terminalOf] using h), List.append_assoc]
      rfl
  | numpy n t d => intro acc; simp [sdGo, listLevels, trailingOf, terminalOf, dtypeOfTerminal]
  | empty n => intro acc; simp [sdGo, listLevels, trailingOf, terminalOf, dtypeOfTerminal]
  | record n => simp [isBuffer, terminalOf] at h

theorem sdGo_error (layout : Content) (h : isBuffer (terminalOf layout) = false) :
    ∀ acc : List (Option ℕ),
      sdGo layout acc
        = .error "Awkward Array type must have regular and irregular lists only" := by
  induction layout with
  | listOffset n c ih => intro acc; exact ih (by simpa [terminalOf] using h) _
  | listArr n c ih => intro acc; exact ih (by simpa [terminalOf] using h) _
  | regular n s c ih => intro acc; exact ih (by simpa [terminalOf] using h) _
  | numpy n t d => simp [isBuffer, terminalOf] at h
  | empty n => simp [isBuffer, terminalOf] at h
  | record n => intro acc; rfl

theorem listLevels_entries : ∀ (layout : Content) (k : ℕ),
    k < (listLevels layout).length →
    (((listLevels layout).getD k (some 0) = none)
      ↔ (varMask layout).getD k false = true)
  | .listOffset n c, 0, _ => by simp [listLevels, varMask]
  | .listArr n c, 0, _ => by simp [listLevels, varMask]
  | .regular n s c, 0, _ => by simp [listLevels, varMask]
  | .listOffset n c, k + 1, hk =>
      listLevels_entries c k (by simpa [listLevels] using hk)
  | .listArr n c, k + 1, hk =>
      listLevels_entries c k (by simpa [listLevels] using hk)
  | .regular n s c, k + 1, hk =>
      listLevels_entries c k (by simpa [listLevels] using hk)
  | .numpy n t d, k, hk => by simp [listLevels] at hk
  | .empty n, k, hk => by simp [listLevels] at hk
  | .record n, k, hk => by simp [listLevels] at hk

/-- C5.  On a nested list/regular-repeat layout terminating in a flat
numeric buffer, `_shape_dtype` returns a shape whose length is the nesting
depth plus the terminal buffer's trailing fixed dimensions, with `None`
exactly at the variable-length (list) levels, an integer at every
fixed-size (regular) level, and integers for the trailing buffer
dimensions; if the terminal node is not a flat numeric buffer it raises a
`TypeError`, and this is the only validation: every layout either succeeds
as above or fails with that error. -/
theorem shape_dtype_spec :
    ∀ layout : Content,
      (isBuffer (terminalOf layout) = true →
        _shape_dtype layout
            = .ok (some layout.len :: (listLevels layout ++ (trailingOf layout).map some),
                   dtypeOfTerminal layout)
          ∧ (some layout.len :: (listLevels layout ++ (trailingOf layout).map some)).length
              = nestingDepth layout + (trailingOf layout).length
          ∧ (∀ k, k < (listLevels layout).length →
              (((listLevels layout).getD k (some 0) = none)
                ↔ (varMask layout).getD k false = true)))
      ∧ (isBuffer (terminalOf layout) = false →
          _shape_dtype layout
            = .error "Awkward Array type must have regular and irregular lists only") := by
  intro layout
  refine ⟨fun h => ⟨?_, ?_, listLevels_entries layout⟩, fun h => sdGo_error layout h _⟩
  · rw [_shape_dtype, sdGo_ok layout h]
    rfl
  · simp [nestingDepth]
    omega

/-- C5 witness: the characterization evaluated at the layout of a
`2 * var * 3 * float64` array (list of variable-length lists of regular
triples) and at an unsupported record terminal. -/
theorem shape_dtype_spec_witness :
    _shape_dtype (.listOffset 2 (.regular 5 3 (.numpy 15 [] .float64)))
        = .ok ([some 2, none, some 3], .float64)
    ∧ _shape_dtype (.listOffset 2 (.record 5))
        = .error "Awkward Array type must have regular and irregular lists only" := by
  constructor
  · exact ((shape_dtype_spec (.listOffset 2 (.regular 5 3 (.numpy 15 [] .float64)))).1
      (by decide)).1
  · exact (shape_dtype_spec (.listOffset 2 (.record 5))).2 (by decide)

/-! ### Set functions — src/ragged/_spec_set_functions.py

The `unique_*` family flattens the input with `ak.ravel` and defers to
`np.unique`: sorted deduplicated values, first-occurrence indices, inverse
indices into the values, and multiplicities.  A zero-dimensional input is
special-cased to `indices = [0]`, `inverse = [0]`, `counts = [1]`, and an
empty flattened input returns empty arrays. -/

mutual

/-- `ak.ravel`: all scalars of a ragged value, in order. -/
def ragFlatten : Rag ℚ → List ℚ
  | .leaf v => [v]
  | .node cs => ragFlattenList cs

/-- Flatten a list of ragged subtrees. -/
def ragFlattenList : List (Rag ℚ) → List ℚ
  | [] => []
  | c :: cs => ragFlatten c ++ ragFlattenList cs

end

/-- `np.unique` values: sort, then collapse duplicate runs (keep first
occurrences). -/
def npUniqueValues (xs : List ℚ) : List ℚ :=
  (xs.mergeSort (fun a b => decide (a ≤ b))).dedup

/-- Embedding of `unique_values`. -/
def unique_values (x : Rag ℚ) : List ℚ :=
  match x with
  | .leaf v => npUniqueValues [v]
  | .node _ =>
      if ragFlatten x = [] then [] else npUniqueValues (ragFlatten x)

/-- Embedding of `unique_counts` (values and multiplicities). -/
def unique_counts (x : Rag ℚ) : List ℚ × List ℕ :=
  match x with
  | .leaf v => (npUniqueValues [v], [1])
  | .node _ =>
      if ragFlatten x = [] then ([], [])
      else (npUniqueValues (ragFlatten x),
        (npUniqueValues (ragFlatten x)).map (fun a => (ragFlatten x).count a))

/-- Embedding of `unique_inverse` (values and the index of each flattened
element among the values). -/
def unique_inverse (x : Rag ℚ) : List ℚ × List ℕ :=
  match x with
  | .leaf v => (npUniqueValues [v], [0])
  | .node _ =>
      if ragFlatten x = [] then ([], [])
      else (npUniqueValues (ragFlatten x),
        (ragFlatten x).map (fun q => (npUniqueValues (ragFlatten x)).indexOf q))

/-- Embedding of `unique_all` (values, first-occurrence indices, inverse
indices, counts). -/
def unique_all (x : Rag ℚ) : List ℚ × List ℕ × List ℕ × List ℕ :=
  match x with
  | .leaf v => (npUniqueValues [v], [0], [0], [1])
  | .node _ =>
      if ragFlatten x = [] then ([], [], [], [])
      else (npUniqueValues (ragFlatten x),
        (npUniqueValues (ragFlatten x)).map (fun a => (ragFlatten x).indexOf a),
        (ragFlatten x).map (fun q => (npUniqueValues (ragFlatten x)).indexOf q),
        (npUniqueValues (ragFlatten x)).map (fun a => (ragFlatten x).count a))

theorem npUniqueValues_sorted (xs : List ℚ) : (npUniqueValues xs).Sorted (· < ·) := by
  have htr : ∀ a b c : ℚ, (fun a b => decide (a ≤ b)) a b = true →
      (fun a b => decide (a ≤ b)) b c = true → (fun a b => decide (a ≤ b)) a c = true := by
    intro a b c hab hbc
    simp only [decide_eq_true_eq] at hab hbc ⊢
    exact le_trans hab hbc
  have hto : ∀ a b : ℚ, ((fun a b => decide (a ≤ b)) a b
      || (fun a b => decide (a ≤ b)) b a) = true := by
    intro a b
    rcases le_total a b with h | h <;> simp [h]
  have hp : (xs.mergeSort (fun a b => decide (a ≤ b))).Pairwise
      (fun a b => (fun a b => decide (a ≤ b)) a b = true) :=
    List.sorted_mergeSort htr hto xs
  have hle : (npUniqueValues xs).Sorted (· ≤ ·) := by
    apply List.Pairwise.sublist (List.dedup_sublist _)
    exact hp.imp (fun h => by simpa using h)
  exact hle.lt_of_le (List.nodup_dedup _)

theorem mem_npUniqueValues {a : ℚ} {xs : List ℚ} : a ∈ npUniqueValues xs ↔ a ∈ xs :=
  List.mem_dedup.trans (xs.mergeSort_perm _).mem_iff

theorem npUniqueValues_counts_sum (xs : List ℚ) :
    ((npUniqueValues xs).map (fun a => xs.count a)).sum = xs.length := by
  have hperm := xs.mergeSort_perm (fun a b => decide (a ≤ b))
  have hc : ∀ a : ℚ, xs.count a = (xs.mergeSort (fun a b => decide (a ≤ b))).count a :=
    fun a => (hperm.count_eq a).symm
  calc ((npUniqueValues xs).map (fun a => xs.count a)).sum
      = ((npUniqueValues xs).map
          (fun a => (xs.mergeSort (fun a b => decide (a ≤ b))).count a)).sum := by
        rw [List.map_congr_left (fun a _ => hc a)]
    _ = (xs.mergeSort (fun a b => decide (a ≤ b))).length :=
        List.sum_map_count_dedup_eq_length _
    _ = xs.length := hperm.length_eq

theorem npUniqueValues_getD_indexOf {q : ℚ} {xs : List ℚ} (h : q ∈ xs) :
    (npUniqueValues xs).getD ((npUniqueValues xs).indexOf q) 0 = q := by
  have hm : q ∈ npUniqueValues xs := mem_npUniqueValues.mpr h
  have hlt : (npUniqueValues xs).indexOf q < (npUniqueValues xs).length :=
    List.indexOf_lt_length.mpr hm
  rw [List.getD_eq_getElem _ 0 hlt, List.getElem_indexOf hlt]

theorem npUniqueValues_singleton (v : ℚ) : npUniqueValues [v] = [v] := by
  have := List.perm_singleton.mp ([v].mergeSort_perm (fun a b => decide (a ≤ b)))
  rw [npUniqueValues, this]
  rfl

/-- C6.  For every input `x`: `unique_values(x)` is sorted strictly
ascending (hence duplicate-free); the counts of `unique_counts`/`unique_all`
sum to the number of elements of the flattened `x`; and indexing the values
at the inverse indices of `unique_inverse`/`unique_all` reconstructs the
flattened `x` element for element. -/
theorem unique_family_spec :
    ∀ x : Rag ℚ,
      (unique_values x).Sorted (· < ·)
      ∧ (unique_counts x).2.sum = (ragFlatten x).length
      ∧ (unique_all x).2.2.2.sum = (ragFlatten x).length
      ∧ (∀ i, i < (ragFlatten x).length →
          (unique_inverse x).1.getD ((unique_inverse x).2.getD i 0) 0
            = (ragFlatten x).getD i 0)
      ∧ (∀ i, i < (ragFlatten x).length →
          (unique_all x).1.getD ((unique_all x).2.2.1.getD i 0) 0
            = (ragFlatten x).getD i 0) := by
  intro x
  match x with
  | .leaf v =>
      refine ⟨npUniqueValues_sorted [v], rfl, rfl, ?_, ?_⟩ <;>
      · intro i hi
        have hi0 : i = 0 := by
          simpa [ragFlatten] using hi
        subst hi0
        show (npUniqueValues [v]).getD _ 0 = _
        rw [npUniqueValues_singleton]
        rfl
  | .node cs =>
      by_cases hflat : ragFlatten (.node cs) = []
      · refine ⟨?_, ?_, ?_, ?_, ?_⟩ <;>
          simp [unique_values, unique_counts, unique_all, unique_inverse, hflat]
      · have hval : unique_values (.node cs) = npUniqueValues (ragFlatten (.node cs)) := by
          rw [unique_values, if_neg hflat]
        have hinv : ∀ i, i < (ragFlatten (.node cs)).length →
            (npUniqueValues (ragFlatten (.node cs))).getD
              (((ragFlatten (.node cs)).map
                  (fun q => (npUniqueValues (ragFlatten (.node cs))).indexOf q)).getD i 0) 0
              = (ragFlatten (.node cs)).getD i 0 := by
          intro i hi
          have h1 : (((ragFlatten (.node cs)).map
              (fun q => (npUniqueValues (ragFlatten (.node cs))).indexOf q))).getD i 0
              = (npUniqueValues (ragFlatten (.node cs))).indexOf
                  ((ragFlatten (.node cs))[i]) := by
            rw [List.getD_eq_getElem ((ragFlatten (.node cs)).map
                (fun q => (npUniqueValues (ragFlatten (.node cs))).indexOf q)) 0
                (by simpa using hi)]
            rw [List.getElem_map]
          rw [h1, List.getD_eq_getElem _ 0 hi]
          exact npUniqueValues_getD_indexOf (List.getElem_mem hi)
        refine ⟨?_, ?_, ?_, ?_, ?_⟩
        · rw [hval]
          exact npUniqueValues_sorted _
        · show ((unique_counts (.node cs)).2).sum = _
          rw [unique_counts, if_neg hflat]
          exact npUniqueValues_counts_sum _
        · show ((unique_all (.node cs)).2.2.2).sum = _
          rw [unique_all, if_neg hflat]
          exact npUniqueValues_counts_sum _
        · intro i hi
          show ((unique_inverse (.node cs)).1).getD _ 0 = _
          rw [unique_inverse, if_neg hflat]
          exact hinv i hi
        · intro i hi
          show ((unique_all (.node cs)).1).getD _ 0 = _
          rw [unique_all, if_neg hflat]
          exact hinv i hi

/-- C6 witness: the family evaluated at `[[2, 1], [1]]` (flattened
`[2, 1, 1]`), including the reconstruction of element 2. -/
theorem unique_family_spec_witness :
    (unique_values (q2 [[2, 1], [1]])).Sorted (· < ·)
    ∧ (unique_all (q2 [[2, 1], [1]])).2.2.2.sum = (ragFlatten (q2 [[2, 1], [1]])).length
    ∧ (unique_inverse (q2 [[2, 1], [1]])).1.getD
        ((unique_inverse (q2 [[2, 1], [1]])).2.getD 2 0) 0
        = (ragFlatten (q2 [[2, 1], [1]])).getD 2 0 :=
  ⟨(unique_family_spec (q2 [[2, 1], [1]])).1,
   (unique_family_spec (q2 [[2, 1], [1]])).2.2.1,
   (unique_family_spec (q2 [[2, 1], [1]])).2.2.2.1 2 (by decide)⟩

/-! ### Dtype validation and astype — src/ragged/_spec_array_object.py lines
200-221 and src/ragged/_spec_data_type_functions.py lines 19-37

A numpy dtype descriptor is modelled by its three inspected attributes:
`fields` (sub-fields of a structured dtype), `shape` (internal sub-array
shape) and `type` (the scalar kind, one of the fixed `numeric_types`
enumeration or something else).  The engine's elementwise value conversion
(`ak.values_astype` / `np.ndarray.astype`), a black-box dependency, is a
parameter `cast` of the embedding. -/

/-- The inspected attributes of an `np.dtype`. -/
structure DtypeDesc where
  fields : Option (List String)
  subshape : List ℕ
  kind : NpType
deriving DecidableEq

/-- `dtype.type in numeric_types`: the fixed enumeration of
`_typing.numeric_types` (bool, 8/16/32/64-bit signed and unsigned ints,
32/64-bit floats, 64/128-bit complex). -/
def isNumericKind : NpType → Bool
  | .other _ => false
  | _ => true

mutual

/-- Elementwise application of a scalar conversion to a ragged value
(`ak.values_astype` preserves the list structure). -/
def ragMap (f : ℚ → ℚ) : Rag ℚ → Rag ℚ
  | .leaf v => .leaf (f v)
  | .node cs => .node (ragMapList f cs)

/-- `ragMap` over a list of subtrees. -/
def ragMapList (f : ℚ → ℚ) : List (Rag ℚ) → List (Rag ℚ)
  | [] => []
  | c :: cs => ragMap f c :: ragMapList f cs

end

mutual

/-- The pure list structure of a ragged value: its logical shape. -/
def skeleton : Rag ℚ → Rag Unit
  | .leaf _ => .leaf ()
  | .node cs => .node (skeletonList cs)

/-- `skeleton` over a list of subtrees. -/
def skeletonList : List (Rag ℚ) → List (Rag Unit)
  | [] => []
  | c :: cs => skeleton c :: skeletonList cs

end

mutual

theorem skeleton_ragMap (f : ℚ → ℚ) : (v : Rag ℚ) → skeleton (ragMap f v) = skeleton v
  | .leaf _ => rfl
  | .node cs => by
      rw [show ragMap f (.node cs) = .node (ragMapList f cs) from rfl]
      rw [show skeleton (Rag.node (ragMapList f cs))
            = .node (skeletonList (ragMapList f cs)) from rfl,
        show skeleton (Rag.node cs) = .node (skeletonList cs) from rfl,
        skeletonList_ragMapList f cs]

theorem skeletonList_ragMapList (f : ℚ → ℚ) :
    (cs : List (Rag ℚ)) → skeletonList (ragMapList f cs) = skeletonList cs
  | [] => rfl
  | c :: cs => by
      rw [show ragMapList f (c :: cs) = ragMap f c :: ragMapList f cs from rfl,
        show skeletonList (ragMap f c :: ragMapList f cs)
          = skeleton (ragMap f c) :: skeletonList (ragMapList f cs) from rfl,
        skeleton_ragMap f c, skeletonList_ragMapList f cs]
      rfl

end

/-- An array value: backing data plus dtype metadata. -/
structure RArr where
  data : Rag ℚ
  dtype : DtypeDesc
deriving DecidableEq

/-- Embedding of the dtype-relevant part of `array.__init__`: infer the
dtype from the backing buffer (`observed`), re-cast elementwise when a
different dtype is requested, then validate the final dtype — no
sub-fields, empty internal shape, scalar kind inside `numeric_types`. -/
def mkArray (cast : DtypeDesc → ℚ → ℚ) (v : Rag ℚ) (observed : DtypeDesc)
    (requested : Option DtypeDesc) : Except String RArr :=
  let dt := requested.getD observed
  let data := if requested = none ∨ requested = some observed then v
    else ragMap (cast dt) v
  if dt.fields ≠ none then .error "dtype must not have fields"
  else if dt.subshape ≠ [] then .error "dtype must not have a shape"
  else if isNumericKind dt.kind = false then
    .error "dtype must be numeric (bool, [u]int*, float*, complex*)"
  else .ok ⟨data, dt⟩

/-- Embedding of `astype` = `_box(type(x), *_unbox(x), dtype=dtype)`: the
result's dtype is the requested one; the values are re-cast elementwise when
it differs from the observed dtype. -/
def astype (cast : DtypeDesc → ℚ → ℚ) (x : RArr) (dt : DtypeDesc) : RArr :=
  { data := if dt = x.dtype then x.data else ragMap (cast dt) x.data
    dtype := dt }

/-- C9.  The array constructor raises a `TypeError` whenever the requested
(or, absent a request, inferred) dtype has sub-fields, has a non-empty
internal shape, or has a scalar kind outside the fixed numeric enumeration;
for dtypes inside the enumeration with no fields and empty shape it does
not raise for this reason. -/
theorem array_init_dtype_validation :
    ∀ (cast : DtypeDesc → ℚ → ℚ) (v : Rag ℚ) (observed : DtypeDesc)
      (requested : Option DtypeDesc),
      ((requested.getD observed).fields ≠ none →
        mkArray cast v observed requested = .error "dtype must not have fields")
      ∧ ((requested.getD observed).fields = none →
          (requested.getD observed).subshape ≠ [] →
          mkArray cast v observed requested = .error "dtype must not have a shape")
      ∧ ((requested.getD observed).fields = none →
          (requested.getD observed).subshape = [] →
          isNumericKind (requested.getD observed).kind = false →
          mkArray cast v observed requested
            = .error "dtype must be numeric (bool, [u]int*, float*, complex*)")
      ∧ ((requested.getD observed).fields = none →
          (requested.getD observed).subshape = [] →
          isNumericKind (requested.getD observed).kind = true →
          ∃ x, mkArray cast v observed requested = .ok x) := by
  intro cast v observed requested
  refine ⟨fun h1 => ?_, fun h1 h2 => ?_, fun h1 h2 h3 => ?_, fun h1 h2 h3 => ?_⟩
  · rw [mkArray, if_pos h1]
  · rw [mkArray, if_neg (by simp [h1]), if_pos h2]
  · rw [mkArray, if_neg (by simp [h1]), if_neg (by simp [h2]), if_pos h3]
  · exact ⟨⟨if requested = none ∨ requested = some observed then v
        else ragMap (cast (requested.getD observed)) v, requested.getD observed⟩,
      by rw [mkArray, if_neg (by simp [h1]), if_neg (by simp [h2]),
        if_neg (by simp [h3])]⟩

/-- C9 witness: the three rejections and one acceptance evaluated at
concrete dtypes. -/
theorem array_init_dtype_validation_witness :
    mkArray (fun _ q => q) (.leaf 1) ⟨none, [], .float64⟩ (some ⟨some ["f0"], [], .int64⟩)
        = .error "dtype must not have fields"
    ∧ mkArray (fun _ q => q) (.leaf 1) ⟨none, [], .float64⟩ (some ⟨none, [2], .int64⟩)
        = .error "dtype must not have a shape"
    ∧ mkArray (fun _ q => q) (.leaf 1) ⟨none, [], .float64⟩ (some ⟨none, [], .other "str_"⟩)
        = .error "dtype must be numeric (bool, [u]int*, float*, complex*)"
    ∧ ∃ x, mkArray (fun _ q => q) (.leaf 1) ⟨none, [], .float64⟩ (some ⟨none, [], .int8⟩)
        = .ok x :=
  ⟨(array_init_dtype_validation (fun _ q => q) (.leaf 1) ⟨none, [], .float64⟩
      (some ⟨some ["f0"], [], .int64⟩)).1 (by decide),
   (array_init_dtype_validation (fun _ q => q) (.leaf 1) ⟨none, [], .float64⟩
      (some ⟨none, [2], .int64⟩)).2.1 (by decide) (by decide),
   (array_init_dtype_validation (fun _ q => q) (.leaf 1) ⟨none, [], .float64⟩
      (some ⟨none, [], .other "str_"⟩)).2.2.1 (by decide) (by decide) (by decide),
   (array_init_dtype_validation (fun _ q => q) (.leaf 1) ⟨none, [], .float64⟩
      (some ⟨none, [], .int8⟩)).2.2.2 (by decide) (by decide) (by decide)⟩

/-- C7.  For every engine cast, every value `v` constructible with dtype
`d1` (its elements are fixed by the `d1` conversion), and every dtype `d2`:
`astype(array(v, dtype=d1), d2)` has dtype exactly `d2`, the same logical
shape as the input, and element values `v` cast to `d2`. -/
theorem astype_spec :
    ∀ (cast : DtypeDesc → ℚ → ℚ) (v : Rag ℚ) (d1 d2 : DtypeDesc) (x : RArr),
      mkArray cast v d1 (some d1) = .ok x →
      ragMap (cast d1) v = v →
      (astype cast x d2).dtype = d2
      ∧ skeleton (astype cast x d2).data = skeleton v
      ∧ (astype cast x d2).data = ragMap (cast d2) v := by
  intro cast v d1 d2 x hmk hfix
  have hx : x = ⟨v, d1⟩ := by
    rw [mkArray] at hmk
    simp only [Option.getD_some, or_true, if_pos] at hmk
    split_ifs at hmk
    exact ((Except.ok.injEq _ _).mp hmk).symm
  subst hx
  have hdata : (astype cast ⟨v, d1⟩ d2).data = ragMap (cast d2) v := by
    show (if d2 = (⟨v, d1⟩ : RArr).dtype then (⟨v, d1⟩ : RArr).data
        else ragMap (cast d2) (⟨v, d1⟩ : RArr).data) = ragMap (cast d2) v
    by_cases hd : d2 = d1
    · rw [if_pos (show d2 = (⟨v, d1⟩ : RArr).dtype from hd)]
      show v = _
      rw [hd]
      exact hfix.symm
    · rw [if_neg (show ¬d2 = (⟨v, d1⟩ : RArr).dtype from hd)]
  refine ⟨rfl, ?_, hdata⟩
  rw [hdata]
  exact skeleton_ragMap (cast d2) v

/-- C7 witness: astype evaluated at a concrete array and dtypes with the
identity engine cast. -/
theorem astype_spec_witness :
    (astype (fun _ q => q) ⟨q2 [[1, 2]], ⟨none, [], .float64⟩⟩ ⟨none, [], .int32⟩).dtype
        = ⟨none, [], .int32⟩
    ∧ skeleton (astype (fun _ q => q) ⟨q2 [[1, 2]], ⟨none, [], .float64⟩⟩
        ⟨none, [], .int32⟩).data = skeleton (q2 [[1, 2]])
    ∧ (astype (fun _ q => q) ⟨q2 [[1, 2]], ⟨none, [], .float64⟩⟩ ⟨none, [], .int32⟩).data
        = ragMap ((fun _ q => q) (⟨none, [], .int32⟩ : DtypeDesc)) (q2 [[1, 2]]) :=
  astype_spec (fun _ q => q) (q2 [[1, 2]]) ⟨none, [], .float64⟩ ⟨none, [], .int32⟩
    ⟨q2 [[1, 2]], ⟨none, [], .float64⟩⟩ (by decide) (by decide)

/-! ### nonzero — src/ragged/_spec_searching_functions.py lines 109-131

`nonzero` unboxes its argument; a zero-dimensional scalar is reshaped to the
one-element array `[v]`; then `ak.where` (an external dependency with
`np.nonzero` semantics) yields one index array per dimension, listing the
coordinates of the truthy elements in row-major order. -/

/-- Model of `ak.where` on a one-dimensional array: positions of truthy
entries in order. -/
def akWhere1 (xs : List ℚ) : List ℕ :=
  (List.range xs.length).filter (fun i => xs.getD i 0 ≠ 0)

/-- Model of `ak.where` on a two-dimensional ragged array, as the row-major
coordinate pairs of its truthy elements (rows in order, positions within a
row in order). -/
def akWhere2 (x : List (List ℚ)) : List (ℕ × ℕ) :=
  (List.range x.length).flatMap (fun i =>
    (List.range (x.getD i []).length).filterMap (fun j =>
      if (x.getD i []).getD j 0 ≠ 0 then some (i, j) else none))

/-- Embedding of `nonzero` on a zero-dimensional input: the scalar backing
value is reshaped to `[v]` and `ak.where` applied, giving a 1-tuple. -/
def nonzero_scalar (v : ℚ) : List (List ℕ) := [akWhere1 [v]]

/-- Embedding of `nonzero` on a two-dimensional ragged input: one index
array per dimension. -/
def nonzero_2d (x : List (List ℚ)) : List (List ℕ) :=
  [(akWhere2 x).map Prod.fst, (akWhere2 x).map Prod.snd]

/-- Every coordinate of the ragged 2-D value, in row-major order. -/
def allCoords (x : List (List ℚ)) : List (ℕ × ℕ) :=
  (List.range x.length).flatMap (fun i =>
    (List.range (x.getD i []).length).map (fun j => (i, j)))

theorem map_filter_eq_filterMap {γ β : Type} (g : γ → β) (q : γ → Bool) :
    ∀ l : List γ,
      (l.filter q).map g = l.filterMap (fun a => if q a then some (g a) else none)
  | [] => rfl
  | a :: l => by
      rw [List.filter_cons, List.filterMap_cons]
      cases hq : q a
      · simp only [Bool.false_eq_true, if_neg, if_false]
        exact map_filter_eq_filterMap g q l
      · simp only [if_pos, if_true, List.map_cons]
        rw [map_filter_eq_filterMap g q l]

/-- C8.  `nonzero` of a zero-valued scalar is one empty index array; of a
nonzero scalar, one index array holding index 0; and of a ragged 2-D array
it is one index array per dimension such that zipping them yields exactly
the row-major enumeration of all coordinates restricted to the truthy
elements. -/
theorem nonzero_spec :
    (∀ v : ℚ, v = 0 → nonzero_scalar v = [[]])
    ∧ (∀ v : ℚ, v ≠ 0 → nonzero_scalar v = [[0]])
    ∧ (∀ x : List (List ℚ),
        ((nonzero_2d x).getD 0 []).zip ((nonzero_2d x).getD 1 [])
          = (allCoords x).filter (fun p => decide ((x.getD p.1 []).getD p.2 0 ≠ 0))) := by
  refine ⟨?_, ?_, ?_⟩
  · intro v hv
    subst hv
    rfl
  · intro v hv
    show [akWhere1 [v]] = [[0]]
    rw [akWhere1]
    simp [List.range_succ, hv]
  · intro x
    show ((akWhere2 x).map Prod.fst).zip ((akWhere2 x).map Prod.snd) = _
    rw [List.zip_map' Prod.fst Prod.snd (akWhere2 x)]
    have hid : (akWhere2 x).map (fun a => (a.1, a.2)) = akWhere2 x := by
      simp
    rw [hid, allCoords, List.filter_flatMap, akWhere2]
    apply List.flatMap_congr
    intro i _
    have e : ((fun p => decide ((x.getD p.1 []).getD p.2 0 ≠ 0)) ∘ (fun j => ((i, j) : ℕ × ℕ)))
        = (fun j => decide ((x.getD i []).getD j 0 ≠ 0)) := rfl
    rw [List.filter_map, e,
      map_filter_eq_filterMap (fun j => ((i, j) : ℕ × ℕ))
        (fun j => decide ((x.getD i []).getD j 0 ≠ 0)) (List.range (x.getD i []).length)]
    apply List.filterMap_congr
    intro j _
    simp

/-- C8 witness: `nonzero` evaluated at the zero scalar, a nonzero scalar,
and the ragged array `[[0, 1], [2]]`. -/
theorem nonzero_spec_witness :
    nonzero_scalar 0 = [[]]
    ∧ nonzero_scalar 5 = [[0]]
    ∧ ((nonzero_2d [[0, 1], [2]]).getD 0 []).zip ((nonzero_2d [[0, 1], [2]]).getD 1 [])
        = (allCoords [[0, 1], [2]]).filter
            (fun p => decide ((([[0, 1], [2]] : List (List ℚ)).getD p.1 []).getD p.2 0 ≠ 0)) :=
  ⟨nonzero_spec.1 0 rfl, nonzero_spec.2.1 5 (by decide), nonzero_spec.2.2 [[0, 1], [2]]⟩

/-! ### Item assignment — src/ragged/_spec_array_object.py lines 864-874 -/

/-- The keys accepted by `__setitem__` (`SetSliceKey`): an integer, a slice,
an ellipsis, a tuple of those, or an integer array. -/
inductive SetKey where
  | int (i : ℤ)
  | slice (start stop step : Option ℤ)
  | ellipsis
  | tuple (ks : List SetKey)
  | arr (a : Rag ℚ)

/-- Embedding of `array.__setitem__` as a state transformer: a successful
assignment would return the updated array value, but the method
unconditionally raises before touching anything, so no updated state ever
exists and the receiver is unchanged. -/
def setitem (_x : RArr) (_k : SetKey) (_v : Rag ℚ) : Except String RArr :=
  .error "ragged.array is an immutable type; its values cannot be assigned to"

/-- C10.  For every array, every key and every value, item assignment
raises a `TypeError` naming the immutability of the type; since the
exception is raised before anything is touched, the array's backing value,
shape, dtype and device are unchanged and no mutated array value is ever
produced. -/
theorem setitem_always_raises :
    ∀ (x : RArr) (k : SetKey) (v : Rag ℚ),
      setitem x k v
        = .error "ragged.array is an immutable type; its values cannot be assigned to"
      ∧ (setitem x k v).isOk = false :=
  fun _ _ _ => ⟨rfl, rfl⟩

end Ragged
